import Mathlib

/-!
Verification of the Sia contract-backed erasure-coded storage pipeline and
the miner header-memory excerpt.

The miner section is a shallow embedding of `src/unnamed/part_000`
(package `miner`: `blockForWork`, `BlockForWork`, `HeaderForWork`,
`SubmitBlock`, `SubmitHeader`).  The renter sections model the components
described in the specification (PieceTransport, the erasure-coded
upload/download pipeline, RedundancyTracker/RepairScheduler,
ContractManager and StreamCache), whose implementation is outside the
excerpt; only their integration tests are present.
-/

namespace Sia

/-- Association-list lookup, the embedding of reading a Go map. -/
def mfind {α β : Type} [DecidableEq α] : List (α × β) → α → Option β
  | [], _ => none
  | (a, b) :: rest, k => if a = k then some b else mfind rest k

/-- The embedding of `delete(m, k)` on a Go map. -/
def merase {α β : Type} [DecidableEq α] (m : List (α × β)) (k : α) : List (α × β) :=
  m.filter (fun p => decide (p.1 ≠ k))

/-- The embedding of `m[k] = v` on a Go map. -/
def minsert {α β : Type} [DecidableEq α] (m : List (α × β)) (k : α) (v : β) : List (α × β) :=
  (k, v) :: merase m k

namespace Miner

/-- `types.Transaction` restricted to the fields the miner excerpt touches:
`ArbitraryData` (a list of byte strings, each byte string modelled as a
`List Nat`) and `MinerFees` (each fee modelled as a `Nat`). -/
structure Transaction where
  arbitraryData : List (List Nat)
  minerFees : List Nat
deriving DecidableEq, Repr

/-- `types.Block` restricted to the fields the miner excerpt touches:
`ParentID`, `Nonce`, `Timestamp`, `MinerPayouts` (each payout collapsed to
its value) and `Transactions`.  A freshly assembled Go block has the zero
nonce. -/
structure Block where
  parentID : Nat
  nonce : Nat
  timestamp : Nat
  minerPayouts : List Nat
  transactions : List Transaction
deriving DecidableEq, Repr

/-- `types.BlockHeader`.  The Merkle root commits to the payouts and the
transactions; the hash itself is external, so it is modelled by the
committed data (an injective stand-in). -/
structure BlockHeader where
  parentID : Nat
  nonce : Nat
  timestamp : Nat
  merkleRoot : List Nat × List Transaction
deriving DecidableEq, Repr

/-- `Block.Header()`: the header of a block. -/
def Block.header (b : Block) : BlockHeader :=
  ⟨b.parentID, b.nonce, b.timestamp, (b.minerPayouts, b.transactions)⟩

/-- The Go zero value of `types.BlockHeader`, returned by reading an unset
slot of the header ring. -/
def zeroHeader : BlockHeader := ⟨0, 0, 0, ([], [])⟩

/-- External collaborators and package constants used by the miner excerpt:
`types.CalculateCoinbase`, `modules.PrefixNonSia` (as a byte string), and
the constants `headerForWorkMemory` and `headersPerBlockMemory`. -/
structure Ext where
  calculateCoinbase : Nat → Nat
  pfxNonSia : List Nat
  headerForWorkMemory : Nat
  headersPerBlockMemory : Nat

/-- The miner's state: the fields of `Miner` the excerpt touches.  The maps
`blockMem` and `randTxnMem` are keyed by header; `headerMem` is the ring of
the last `headerForWorkMemory` headers, keyed by ring index. -/
structure MinerState where
  height : Nat
  earliestTimestamp : Nat
  currentTimestamp : Nat
  parent : Nat
  target : Nat
  address : Nat
  transactions : List Transaction
  blockMem : List (BlockHeader × Block)
  randTxnMem : List (BlockHeader × Transaction)
  headerMem : List (Nat × BlockHeader)
  memProgress : Nat
deriving DecidableEq, Repr

/-- Reading `m.headerMem[i]`: an unset slot yields the zero header. -/
def hmGet (m : MinerState) (i : Nat) : BlockHeader :=
  (mfind m.headerMem i).getD zeroHeader

/-- Total miner fees of a transaction list, as summed by `blockForWork`. -/
def totalFees (txns : List Transaction) : Nat :=
  (txns.map (fun t => t.minerFees.sum)).sum

/-- The randomized transaction `randTxn`: arbitrary data is
`append(modules.PrefixNonSia[:], randBytes...)`; the random bytes are an
input `rand` (the excerpt draws them from `crypto.RandBytes`). -/
def randTxnOf (e : Ext) (rand : Nat) : Transaction :=
  ⟨[e.pfxNonSia ++ [rand]], []⟩

/-- `(m *Miner) blockForWork()`: assembles a block ready for nonce
grinding, returning the block and the target. -/
def blockForWork (e : Ext) (m : MinerState) (rand : Nat) : Block × Nat :=
  let blockTimestamp :=
    if m.currentTimestamp < m.earliestTimestamp then m.earliestTimestamp
    else m.currentTimestamp
  let subsidy := e.calculateCoinbase m.height + totalFees m.transactions
  let blockPayouts := [subsidy]
  let blockTransactions := randTxnOf e rand :: m.transactions
  (⟨m.parent, 0, blockTimestamp, blockPayouts, blockTransactions⟩, m.target)

/-- `(m *Miner) HeaderForWork()`, header-assembly step: every
`headersPerBlockMemory`-th request assembles a fresh block via
`blockForWork` and uses its header; in between, the block of the previous
header is reused with a fresh randomized transaction spliced in front (the
stored block is the reused one, the header is that of the re-assembled
block).  The Go code assumes the previous block is still in `blockMem`;
the `getD` fallback is unreachable under that assumption. -/
def headerForWorkChoice (e : Ext) (m : MinerState) (rand : Nat) :
    BlockHeader × Block × Transaction :=
  if m.memProgress % e.headersPerBlockMemory = 0 then
    let b := (blockForWork e m rand).1
    (b.header, b, b.transactions.headD ⟨[], []⟩)
  else
    let b := (mfind m.blockMem (hmGet m (m.memProgress - 1))).getD
      (blockForWork e m rand).1
    let rt := randTxnOf e rand
    let nb : Block :=
      ⟨b.parentID, b.nonce, b.timestamp, b.minerPayouts,
        rt :: b.transactions.drop 1⟩
    (nb.header, b, rt)

/-- `(m *Miner) HeaderForWork()`, storage step: records the
(header ↦ block) and (header ↦ randTxn) mappings for the header chosen by
`headerForWorkChoice`, replacing the entry stored `headerForWorkMemory`
requests ago (the one at ring slot `memProgress`), then advances
`memProgress` cyclically. -/
def headerForWork (e : Ext) (m : MinerState) (rand : Nat) :
    BlockHeader × Nat × MinerState :=
  let hbt := headerForWorkChoice e m rand
  let header := hbt.1
  let evictKey := hmGet m m.memProgress
  let blockMem2 := minsert (merase m.blockMem evictKey) header hbt.2.1
  let randTxnMem2 := minsert (merase m.randTxnMem evictKey) header hbt.2.2
  let headerMem2 := minsert m.headerMem m.memProgress header
  let mp1 := m.memProgress + 1
  let mp2 := if mp1 = e.headerForWorkMemory then 0 else mp1
  (header, m.target,
    { m with blockMem := blockMem2, randTxnMem := randTxnMem2,
             headerMem := headerMem2, memProgress := mp2 })

/-- A sequence of `HeaderForWork` calls, one per random draw, returning
the final miner state. -/
def headerForWorkRun (e : Ext) : MinerState → List Nat → MinerState
  | m, [] => m
  | m, r :: rs => headerForWorkRun e (headerForWork e m r).2.2 rs

/-- The headers returned by a sequence of `HeaderForWork` calls. -/
def headerForWorkRunHeaders (e : Ext) : MinerState → List Nat → List BlockHeader
  | _, [] => []
  | m, r :: rs =>
      (headerForWork e m r).1 ::
        headerForWorkRunHeaders e (headerForWork e m r).2.2 rs

/-- A block header with its nonce zeroed, as `SubmitHeader` computes
`lookupBH`. -/
def zeroNonceOf (bh : BlockHeader) : BlockHeader := { bh with nonce := 0 }

/-- `(m *Miner) SubmitHeader(bh)`: looks `bh` up with its nonce zeroed; on
a miss returns an error (`none`) and leaves the state unchanged; on a hit
resets `memProgress`, splices the stored randomized transaction back into
the stored block, sets the solved nonce, and submits the block (the
submitted block is returned; `SubmitBlock` hands it to the consensus set,
an external collaborator). -/
def submitHeader (m : MinerState) (bh : BlockHeader) :
    Option Block × MinerState :=
  let lookupBH := zeroNonceOf bh
  match mfind m.blockMem lookupBH, mfind m.randTxnMem lookupBH with
  | some b, some randTxn =>
      let m1 := { m with memProgress := 0 }
      let blockTransactions := randTxn :: b.transactions.drop 1
      let block : Block :=
        ⟨b.parentID, bh.nonce, b.timestamp, b.minerPayouts, blockTransactions⟩
      (some block, m1)
  | _, _ => (none, m)

/-- The block `SubmitHeader` assembles from a stored block `b`, a stored
randomized transaction `t` and the solved nonce `n`. -/
def assembledBlock (b : Block) (t : Transaction) (n : Nat) : Block :=
  ⟨b.parentID, n, b.timestamp, b.minerPayouts, t :: b.transactions.drop 1⟩

/-- A concrete transaction used to exercise the miner model. -/
def txW : Transaction := ⟨[[5]], []⟩

/-- A concrete stored block (zero nonce, as all stored blocks are). -/
def bW : Block := ⟨1, 0, 10, [100], [txW]⟩

/-- The header of `bW`, the key under which it is stored. -/
def kW : BlockHeader := bW.header

/-- A concrete stored randomized transaction. -/
def tW : Transaction := ⟨[[7]], []⟩

/-- Concrete external collaborators for the miner model. -/
def eW : Ext := ⟨fun h => 100 - h, [9], 3, 2⟩

/-- A concrete miner state holding `bW` and `tW` under key `kW`. -/
def mW : MinerState := ⟨5, 10, 7, 1, 99, 4, [], [(kW, bW)], [(kW, tW)], [], 0⟩

/-- `kW` solved with nonce 42. -/
def bhW : BlockHeader := { kW with nonce := 42 }

end Miner

namespace Renter

/-! The renter's implementation is not part of the excerpt (only its
integration tests are), so the components below are modelled from the
specification. -/

/-- Modelled from the spec: a contract's on-record state as PieceTransport
and ContractSet see it (missing from the excerpt): the current revision
number and the number of committed pieces. -/
structure Contract where
  revisionNumber : Nat
  pieceCount : Nat
deriving DecidableEq, Repr

/-- A piece operation: a read (download) or a write (upload). -/
inductive PieceOp
  | read
  | write
deriving DecidableEq, Repr

/-- Modelled from the spec: the two well-defined injection points at which
the caller may inject a failure into a transfer: before the signed
revision is sent, and after it is sent but before the peer's
counter-signature is received. -/
inductive InjectionPoint
  | beforeRevisionSent
  | afterRevisionSent
deriving DecidableEq, Repr

/-- Modelled from the spec: the ephemeral per-transfer session holding the
revision the transfer intends to commit. -/
structure TransferSession where
  proposedRevision : Nat
deriving DecidableEq, Repr

/-- Building the proposed new revision: the revision number is
incremented. -/
def newSession (c : Contract) : TransferSession := ⟨c.revisionNumber + 1⟩

/-- Committing a revision: the stored revision is replaced only here,
after both signatures have been obtained. -/
def commitRevision (c : Contract) (s : TransferSession) (op : PieceOp) :
    Contract :=
  { revisionNumber := s.proposedRevision,
    pieceCount :=
      match op with
      | PieceOp.write => c.pieceCount + 1
      | PieceOp.read => c.pieceCount }

/-- Modelled from the spec: PieceTransport `transfer(contract, pieceOp)`
(missing from the excerpt): build the proposed revision, send the payload,
send the signed revision, receive the counter-signature, and only then
commit.  An injected failure at either injection point makes the operation
fail with the contract's on-record revision exactly as it was before the
attempt.  The first component is the result (`none` = failure), the second
the contract's on-record state afterwards. -/
def transfer (c : Contract) (op : PieceOp) (inj : Option InjectionPoint) :
    Option Contract × Contract :=
  let s := newSession c
  if inj = some InjectionPoint.beforeRevisionSent then (none, c)
  else if inj = some InjectionPoint.afterRevisionSent then (none, c)
  else
    let c2 := commitRevision c s op
    (some c2, c2)

/-- A sequence of transfer attempts, each interrupted at one of the two
injection points. -/
def runInterrupted (c : Contract)
    (attempts : List (PieceOp × InjectionPoint)) : Contract :=
  attempts.foldl (fun st pr => (transfer st pr.1 (some pr.2)).2) c

/-- Modelled from the spec: the renter settings relevant here, the stream
cache size in chunks. -/
structure Settings where
  streamCacheSize : Nat
deriving DecidableEq, Repr

/-- Modelled from the spec: `setStreamCacheSize(numChunks)` (missing from
the excerpt): a requested size of zero is rejected (ignored, previous
value retained); any positive size takes effect. -/
def setStreamCacheSize (s : Settings) (n : Nat) : Settings :=
  if n = 0 then s else { s with streamCacheSize := n }

/-- Modelled from the spec (§4.1): the per-contract fields of the
ContractManager state machine: end height, the `goodForRenew` flag and the
consecutive-renewal-failure counter. -/
structure MContract where
  endHeight : Nat
  goodForRenew : Bool
  renewFailures : Nat
deriving DecidableEq, Repr

/-- ContractManager policy constants: the renew window and the configured
number of consecutive renewal failures after which a contract is
invalidated. -/
structure CMConfig where
  renewWindow : Nat
  maxRenewFailures : Nat
deriving DecidableEq, Repr

/-- Modelled from the spec (§4.1, missing from the excerpt): processing
one block height `h` for one contract.  If the contract is not
`goodForRenew` it is excluded from renewals.  If `h + renewWindow ≥
endHeight` a renewal is attempted; `renewOK` is the outcome of the
negotiation with the host (external).  Success extends the end height by
the period and resets the failure counter.  Failure increments the
counter and invalidates the contract only once the configured count is
reached or the end height is within half of the renew window, whichever
triggers sooner. -/
def processHeight (cfg : CMConfig) (period : Nat) (c : MContract) (h : Nat)
    (renewOK : Bool) : MContract :=
  if ¬ c.goodForRenew then c
  else if h + cfg.renewWindow < c.endHeight then c
  else if renewOK then
    { c with endHeight := c.endHeight + period, renewFailures := 0 }
  else
    let f := c.renewFailures + 1
    if cfg.maxRenewFailures ≤ f ∨ c.endHeight ≤ h + cfg.renewWindow / 2 then
      { c with goodForRenew := false, renewFailures := f }
    else { c with renewFailures := f }

/-- A run of `n` consecutive block heights `h0, h0+1, …` on which every
renewal attempt with the host fails. -/
def failingRun (cfg : CMConfig) (period : Nat) (c : MContract) (h0 : Nat) :
    Nat → MContract
  | 0 => c
  | n + 1 => processHeight cfg period (failingRun cfg period c h0 n)
      (h0 + n) false

/-- A contract as seen by the ContractSet replacement logic: its host and
its `goodForRenew` flag. -/
structure SetContract where
  host : Nat
  goodForRenew : Bool
deriving DecidableEq, Repr

/-- Marks the contract with the given host `!goodForRenew`; other
contracts are untouched. -/
def markFailed (cs : List SetContract) (h : Nat) : List SetContract :=
  cs.map (fun c => if c.host = h then { c with goodForRenew := false } else c)

/-- Modelled from the spec (§4.1, missing from the excerpt): when a host
becomes permanently unresponsive, its contract transitions to
`!goodForRenew` (only if it has not already) and ContractManager forms
exactly one replacement contract with a different host. -/
def replaceFailedHost (cs : List SetContract) (h fresh : Nat) :
    List SetContract :=
  if cs.any (fun c => decide (c.host = h) && c.goodForRenew) then
    markFailed cs h ++ [⟨fresh, true⟩]
  else cs

/-- The number of active `goodForRenew` contracts. -/
def goodCount (cs : List SetContract) : Nat :=
  (cs.filter (fun c => c.goodForRenew)).length

/-- Modelled from the spec: the StreamCache (missing from the excerpt): a
bounded cache of decoded chunk plaintext keyed by (file identity, chunk
index), most recently used first, evicted by recency when the capacity in
chunks is exceeded. -/
structure StreamCache where
  capacity : Nat
  entries : List ((Nat × Nat) × List Nat)
deriving DecidableEq, Repr

/-- Cache lookup. -/
def cacheLookup (sc : StreamCache) (k : Nat × Nat) : Option (List Nat) :=
  mfind sc.entries k

/-- A cache hit moves the entry to the front (most recently used). -/
def cacheTouch (sc : StreamCache) (k : Nat × Nat) (v : List Nat) :
    StreamCache :=
  { sc with entries := (k, v) :: merase sc.entries k }

/-- Inserting a decoded chunk: the entry goes to the front and the
least-recently-used entries beyond the capacity are evicted. -/
def cacheInsert (sc : StreamCache) (k : Nat × Nat) (v : List Nat) :
    StreamCache :=
  { sc with entries := ((k, v) :: merase sc.entries k).take sc.capacity }

/-- Modelled from the spec: the DownloadPipeline chunk-fetch path (missing
from the excerpt): consult the StreamCache first; on a hit use the cached
plaintext directly with no network I/O; on a miss fetch and decode the
chunk from the network (`net k`, external) and insert it into the cache.
Returns the plaintext, the new cache, and whether the network was used. -/
def fetchChunk (net : Nat × Nat → List Nat) (sc : StreamCache)
    (k : Nat × Nat) : List Nat × StreamCache × Bool :=
  match cacheLookup sc k with
  | some v => (v, cacheTouch sc k v, false)
  | none =>
      let v := net k
      (v, cacheInsert sc k v, true)

/-- The number of network fetches performed by `n` repeated single-chunk
`streamRange` requests for the same chunk key. -/
def repeatedFetchCount (net : Nat × Nat → List Nat) (sc : StreamCache)
    (k : Nat × Nat) : Nat → Nat
  | 0 => 0
  | n + 1 =>
      let r := fetchChunk net sc k
      (if r.2.2 then 1 else 0) + repeatedFetchCount net r.2.1 k n

/-- Modelled from the spec: the external Erasure Codec collaborator:
`encode D P plain` produces the `D + P` pieces of a chunk, and `decode`
recovers the plaintext from any `D` of them, supplied as (piece index,
piece data) pairs.  The matrix construction is explicitly out of the
spec's scope, so the codec is modelled by its interface together with its
contract. -/
structure Codec where
  encode : Nat → Nat → List Nat → List (List Nat)
  decode : Nat → List (Nat × List Nat) → Option (List Nat)
  encode_length : ∀ D P x, (encode D P x).length = D + P
  decode_encode : ∀ D P x (sel : List (Nat × List Nat)), 0 < D →
    (sel.map Prod.fst).Nodup → D ≤ sel.length →
    (∀ pr ∈ sel, (encode D P x)[pr.1]? = some pr.2) →
    decode D sel = some x

/-- Splitting file bytes into fixed-size chunks (the last chunk may be
short); the fuel argument (the byte count at the top call) only justifies
termination. -/
def chunksGo (c : Nat) : Nat → List Nat → List (List Nat)
  | 0, _ => []
  | _, [] => []
  | fuel + 1, X => X.take c :: chunksGo c fuel (X.drop c)

/-- The chunks of a byte string, in order. -/
def chunkify (c : Nat) (X : List Nat) : List (List Nat) :=
  chunksGo c X.length X

/-- One erasure-coded piece: its index within the chunk, the host storing
it and its data. -/
structure Piece where
  pieceIndex : Nat
  host : Nat
  data : List Nat
deriving DecidableEq, Repr

/-- A chunk descriptor: the set of piece locations. -/
structure Chunk where
  pieces : List Piece
deriving DecidableEq, Repr

/-- A remote file: erasure parameters, chunk size and the ordered chunk
descriptors. -/
structure RFile where
  dataPieces : Nat
  parityPieces : Nat
  chunkSize : Nat
  chunks : List Chunk
deriving DecidableEq, Repr

/-- Erasure-encodes one chunk and places piece `i` on host `hosts[i]`, so
that no host holds two pieces of the same chunk when the hosts are
distinct. -/
def encodeChunk (cd : Codec) (D P : Nat) (hosts : List Nat)
    (plain : List Nat) : Chunk :=
  ⟨((cd.encode D P plain).enum.zip hosts).map
      (fun pr => ⟨pr.1.1, pr.2, pr.1.2⟩)⟩

/-- Modelled from the spec: UploadPipeline `upload(file, D, P)` (missing
from the excerpt): splits the bytes into fixed-size chunks,
erasure-encodes each chunk into `D + P` pieces, and places one piece per
host. -/
def upload (cd : Codec) (hosts : List Nat) (D P csz : Nat) (X : List Nat) :
    RFile :=
  ⟨D, P, csz, (chunkify csz X).map (encodeChunk cd D P hosts)⟩

/-- The retrievable pieces of a chunk: those stored on a reachable host. -/
def retrievable (alive : Nat → Bool) (ch : Chunk) : List Piece :=
  ch.pieces.filter (fun p => alive p.host)

/-- A chunk's health: the count of currently retrievable pieces. -/
def chunkHealth (alive : Nat → Bool) (ch : Chunk) : Nat :=
  (retrievable alive ch).length

/-- Modelled from the spec: DownloadPipeline chunk recovery (missing from
the excerpt): fetch `dataPieces` retrievable pieces and decode; fail hard
(`none`) when fewer than `dataPieces` pieces are retrievable. -/
def downloadChunk (cd : Codec) (D : Nat) (alive : Nat → Bool) (ch : Chunk) :
    Option (List Nat) :=
  let av := retrievable alive ch
  if av.length < D then none
  else cd.decode D ((av.take D).map (fun p => (p.pieceIndex, p.data)))

/-- Modelled from the spec: a full download decodes every chunk and
concatenates the plaintexts; it fails (`none`, no partial data) when any
chunk fails. -/
def download (cd : Codec) (alive : Nat → Bool) (f : RFile) :
    Option (List Nat) :=
  (f.chunks.mapM (downloadChunk cd f.dataPieces alive)).map List.flatten

/-- The chunks covering the byte range `[a, b)`. -/
def coveringChunks (f : RFile) (a b : Nat) : List Chunk :=
  (f.chunks.drop (a / f.chunkSize)).take
    ((b - 1) / f.chunkSize + 1 - a / f.chunkSize)

/-- Modelled from the spec: partial-range streaming `streamRange` (missing
from the excerpt): fetches only the covering chunks, decodes them, and
slices out the requested sub-range. -/
def streamRange (cd : Codec) (alive : Nat → Bool) (f : RFile) (a b : Nat) :
    Option (List Nat) :=
  ((coveringChunks f a b).mapM (downloadChunk cd f.dataPieces alive)).map
    (fun parts =>
      (parts.flatten.drop (a - a / f.chunkSize * f.chunkSize)).take (b - a))

/-- A file's minimum chunk health (`none` for a file with no chunks). -/
def fileHealth (alive : Nat → Bool) (f : RFile) : Option Nat :=
  match f.chunks.map (chunkHealth alive) with
  | [] => none
  | h :: rest => some (rest.foldl min h)

/-- Modelled from the spec: redundancy of a file = min over chunks of
health / dataPieces. -/
def redundancy (alive : Nat → Bool) (f : RFile) : ℚ :=
  match fileHealth alive f with
  | none => 0
  | some h => (h : ℚ) / (f.dataPieces : ℚ)

/-- Chunk invariant tying a chunk to its plaintext: the retrievable pieces
carry distinct indices and data valid for `plain`. -/
def ChunkOK (cd : Codec) (D P : Nat) (alive : Nat → Bool)
    (plain : List Nat) (ch : Chunk) : Prop :=
  ((retrievable alive ch).map Piece.pieceIndex).Nodup ∧
  ∀ p ∈ retrievable alive ch, (cd.encode D P plain)[p.pieceIndex]? = some p.data

/-- The per-chunk piece-count target realizing a redundancy cap. -/
def repairTarget (D : Nat) (cap : ℚ) : Nat := (⌈cap * (D : ℚ)⌉).toNat

/-- The pieces a remote repair pass re-uploads for one chunk: re-encoded
pieces (from the reconstructed plaintext) for indices not currently
retrievable, placed on fresh hosts, up to the target piece count. -/
def repairPieces (cd : Codec) (D P : Nat) (alive : Nat → Bool)
    (fresh : List Nat) (target : Nat) (plain : List Nat) (ch : Chunk) :
    List Piece :=
  let need := target - chunkHealth alive ch
  let idxs := (retrievable alive ch).map Piece.pieceIndex
  let missing := (List.range (D + P)).filter (fun i => decide (i ∉ idxs))
  ((missing.take need).zip fresh).map
    (fun pr => ⟨pr.1, pr.2, ((cd.encode D P plain)[pr.1]?).getD []⟩)

/-- Modelled from the spec: remote repair of one chunk (missing from the
excerpt): reconstruct the plaintext from enough surviving pieces (via the
download path), re-encode, and upload the missing pieces to fresh hosts,
up to the target piece count; a chunk that cannot be reconstructed is
left alone. -/
def repairChunk (cd : Codec) (D P : Nat) (alive : Nat → Bool)
    (fresh : List Nat) (target : Nat) (ch : Chunk) : Chunk :=
  match downloadChunk cd D alive ch with
  | none => ch
  | some plain =>
      ⟨ch.pieces ++ repairPieces cd D P alive fresh target plain ch⟩

/-- Modelled from the spec: RepairScheduler remote repair (missing from
the excerpt): it stops once redundancy has reached
`(1 − remoteRepairDownloadThreshold) × originalRedundancy` (`cap`),
rather than always pushing back to full redundancy; below the cap it
repairs each chunk up to the target piece count. -/
def remoteRepair (cd : Codec) (cap : ℚ) (alive : Nat → Bool)
    (fresh : List Nat) (f : RFile) : RFile :=
  if cap ≤ redundancy alive f then f
  else
    { f with chunks :=
        (f.chunks.map (repairChunk cd f.dataPieces f.parityPieces alive fresh
          (repairTarget f.dataPieces cap))) }

/-- A replication codec: every piece is the plaintext itself and decoding
takes any piece.  It satisfies the codec contract and instantiates the
external collaborator in concrete runs. -/
def repCodec : Codec where
  encode D P x := List.replicate (D + P) x
  decode _ sel := sel.head?.map Prod.snd
  encode_length := by intro D P x; simp
  decode_encode := by
    intro D P x sel hD hnd hlen hval
    match sel with
    | [] => simp at hlen; omega
    | pr :: rest =>
        have h := hval pr (List.mem_cons_self pr rest)
        rw [List.getElem?_replicate] at h
        split at h
        · simp at h
          simp [h]
        · simp at h

/-- A reachability pattern for the concrete repair scenario: hosts 0 and
3 are up, all others down. -/
def aliveW : Nat → Bool := fun h => decide (h = 0 ∨ h = 3)

/-- The chunk of a one-byte file `[9]` encoded with the replication codec
(`D = 1, P = 2`) onto hosts 0, 1 and 2. -/
def chW : Chunk := ⟨[⟨0, 0, [9]⟩, ⟨1, 1, [9]⟩, ⟨2, 2, [9]⟩]⟩

/-- The remote file for the concrete repair scenario (hosts 1 and 2 are
down, host 3 is a fresh replacement). -/
def fW : RFile := ⟨1, 2, 4, [chW]⟩

end Renter

-- ### Theorems

namespace Miner

theorem mfind_eq_some_mem {α β : Type} [DecidableEq α] {m : List (α × β)}
    {k : α} {v : β} (h : mfind m k = some v) : (k, v) ∈ m := by
  induction m with
  | nil => simp [mfind] at h
  | cons p rest ih =>
      obtain ⟨a, b⟩ := p
      by_cases hk : a = k
      · subst hk
        simp [mfind] at h
        subst h
        exact List.mem_cons_self _ _
      · simp [mfind, hk] at h
        exact List.mem_cons_of_mem _ (ih h)

theorem mfind_merase_self {α β : Type} [DecidableEq α] (m : List (α × β))
    (k : α) : mfind (merase m k) k = none := by
  induction m with
  | nil => rfl
  | cons p rest ih =>
      obtain ⟨a, b⟩ := p
      by_cases hk : a = k
      · simpa [merase, hk] using ih
      · simpa [merase, mfind, hk] using ih

theorem mfind_merase_ne {α β : Type} [DecidableEq α] (m : List (α × β))
    (k k' : α) (h : k' ≠ k) : mfind (merase m k) k' = mfind m k' := by
  induction m with
  | nil => rfl
  | cons p rest ih =>
      obtain ⟨a, b⟩ := p
      by_cases hk : a = k
      · subst hk
        have : a ≠ k' := fun e => h e.symm
        simpa [merase, mfind, this] using ih
      · by_cases hk' : a = k'
        · subst hk'
          simp [merase, mfind, hk, List.filter_cons]
        · simpa [merase, mfind, hk, hk'] using ih

theorem mfind_minsert_self {α β : Type} [DecidableEq α] (m : List (α × β))
    (k : α) (v : β) : mfind (minsert m k v) k = some v := by
  simp [minsert, mfind]

theorem mfind_minsert_ne {α β : Type} [DecidableEq α] (m : List (α × β))
    (k k' : α) (v : β) (h : k' ≠ k) :
    mfind (minsert m k v) k' = mfind m k' := by
  have hk : k ≠ k' := fun e => h e.symm
  simp [minsert, mfind, hk]
  exact mfind_merase_ne m k k' h

theorem headerForWork_fst (e : Ext) (m : MinerState) (rand : Nat) :
    (headerForWork e m rand).1 = (headerForWorkChoice e m rand).1 := rfl

theorem headerForWork_state (e : Ext) (m : MinerState) (rand : Nat) :
    (headerForWork e m rand).2.2 =
      { m with
          blockMem := minsert (merase m.blockMem (hmGet m m.memProgress))
            (headerForWorkChoice e m rand).1 (headerForWorkChoice e m rand).2.1,
          randTxnMem := minsert (merase m.randTxnMem (hmGet m m.memProgress))
            (headerForWorkChoice e m rand).1 (headerForWorkChoice e m rand).2.2,
          headerMem := minsert m.headerMem m.memProgress
            (headerForWorkChoice e m rand).1,
          memProgress :=
            if m.memProgress + 1 = e.headerForWorkMemory then 0
            else m.memProgress + 1 } := rfl

theorem headerForWorkChoice_nonce (e : Ext) (m : MinerState) (rand : Nat)
    (hinv : ∀ p ∈ m.blockMem, (Prod.snd p).nonce = 0) :
    (headerForWorkChoice e m rand).1.nonce = 0 := by
  unfold headerForWorkChoice
  split
  · rfl
  · dsimp only
    cases hb : mfind m.blockMem (hmGet m (m.memProgress - 1)) with
    | none => simp [hb, Block.header, blockForWork]
    | some b =>
        have hb0 := hinv _ (mfind_eq_some_mem hb)
        simp [hb, Block.header]
        exact hb0

theorem submitHeader_hit (m : MinerState) (bh : BlockHeader) (b : Block)
    (t : Transaction) (hb : mfind m.blockMem (zeroNonceOf bh) = some b)
    (ht : mfind m.randTxnMem (zeroNonceOf bh) = some t) :
    submitHeader m bh =
      (some (assembledBlock b t bh.nonce), { m with memProgress := 0 }) := by
  unfold submitHeader
  dsimp only
  rw [hb, ht]
  rfl

theorem submitHeader_miss (m : MinerState) (bh : BlockHeader)
    (h : mfind m.blockMem (zeroNonceOf bh) = none ∨
      mfind m.randTxnMem (zeroNonceOf bh) = none) :
    submitHeader m bh = (none, m) := by
  unfold submitHeader
  dsimp only
  rcases h with h | h
  · rw [h]
  · cases hb : mfind m.blockMem (zeroNonceOf bh) <;> rw [h]

theorem submitHeader_setNonce_isSome (m : MinerState) (bh : BlockHeader)
    (n : Nat) :
    ((submitHeader m { bh with nonce := n }).1).isSome =
      ((submitHeader m bh).1).isSome := by
  have hz : zeroNonceOf { bh with nonce := n } = zeroNonceOf bh := rfl
  unfold submitHeader
  dsimp only
  rw [hz]
  cases hb : mfind m.blockMem (zeroNonceOf bh) <;>
    cases ht : mfind m.randTxnMem (zeroNonceOf bh) <;> rfl

theorem setNonce_zero_eq {bh : BlockHeader} (h : bh.nonce = 0) (n : Nat) :
    zeroNonceOf { bh with nonce := n } = bh := by
  cases bh
  simp only [zeroNonceOf]
  simp_all

theorem mod_two_cases (M a : Nat) (_hM : 0 < M) (h : a < 2 * M) :
    a % M = if a < M then a else a - M := by
  split
  · exact Nat.mod_eq_of_lt (by omega)
  · rw [Nat.mod_eq_sub_mod (by omega)]
    exact Nat.mod_eq_of_lt (by omega)

theorem mod_succ_inj (M p q : Nat) (hM : 0 < M) (_hp : p < M) (_hq : q < M)
    (h : (q + 1) % M = (p + 1) % M) : q = p := by
  rw [mod_two_cases M (q + 1) hM (by omega),
    mod_two_cases M (p + 1) hM (by omega)] at h
  split at h <;> split at h <;> omega

theorem mod_shift_ne (M p q k : Nat) (hM : 0 < M) (_hp : p < M) (_hq : q < M)
    (hk2 : 2 ≤ k) (hkM : k ≤ M)
    (hA : (q + k) % M = (p + 1) % M) : q ≠ p := by
  intro he
  subst he
  rw [mod_two_cases M (q + k) hM (by omega),
    mod_two_cases M (q + 1) hM (by omega)] at hA
  split at hA <;> split at hA <;> omega

theorem mod_step (M q k : Nat) (_hM : 0 < M) (hq : q < M) (hk : 1 ≤ k) :
    ((q + 1) % M + (k - 1)) % M = (q + k) % M := by
  by_cases hqM : q + 1 = M
  · rw [hqM, Nat.mod_self]
    rw [show q + k = M + (k - 1) from by omega, Nat.add_mod_left]
    rw [Nat.zero_add]
  · have hin : (q + 1) % M = q + 1 := Nat.mod_eq_of_lt (by omega)
    rw [hin]
    congr 1
    omega

theorem wrap_eq_mod (M q : Nat) (_hM : 0 < M) (hq : q < M) :
    (if q + 1 = M then 0 else q + 1) = (q + 1) % M := by
  split
  · rw [show q + 1 = M from by assumption, Nat.mod_self]
  · rw [Nat.mod_eq_of_lt (by omega)]

theorem headerForWorkRun_evicts (e : Ext) (h : BlockHeader) (p : Nat)
    (hM : 0 < e.headerForWorkMemory) (hp : p < e.headerForWorkMemory) :
    ∀ (rands : List Nat) (s : MinerState),
      1 ≤ rands.length → rands.length ≤ e.headerForWorkMemory →
      s.memProgress < e.headerForWorkMemory →
      (s.memProgress + rands.length) % e.headerForWorkMemory =
        (p + 1) % e.headerForWorkMemory →
      mfind s.headerMem p = some h →
      h ∉ headerForWorkRunHeaders e s rands →
      mfind (headerForWorkRun e s rands).blockMem h = none ∧
      mfind (headerForWorkRun e s rands).randTxnMem h = none := by
  intro rands
  induction rands with
  | nil => intro s h1 _ _ _ _ _; simp at h1
  | cons r rs ih =>
      intro s hk1 hkM hq hA hhm hnot
      rw [show headerForWorkRunHeaders e s (r :: rs) =
        (headerForWork e s r).1 ::
          headerForWorkRunHeaders e (headerForWork e s r).2.2 rs
        from rfl] at hnot
      have hne : h ≠ (headerForWork e s r).1 :=
        fun he => hnot (by rw [he]; exact List.mem_cons_self _ _)
      have hnot' : h ∉ headerForWorkRunHeaders e (headerForWork e s r).2.2 rs :=
        fun hm2 => hnot (List.mem_cons_of_mem _ hm2)
      cases rs with
      | nil =>
          have hqp : s.memProgress = p := by
            apply mod_succ_inj e.headerForWorkMemory p s.memProgress hM hp hq
            simpa using hA
          have hevict : hmGet s s.memProgress = h := by
            unfold hmGet
            rw [hqp, hhm]
            rfl
          show mfind ((headerForWork e s r).2.2).blockMem h = none ∧
            mfind ((headerForWork e s r).2.2).randTxnMem h = none
          rw [headerForWork_state]
          dsimp only
          rw [hevict]
          constructor
          · rw [mfind_minsert_ne _ _ _ _ (by rw [headerForWork_fst] at hne; exact hne)]
            exact mfind_merase_self _ _
          · rw [mfind_minsert_ne _ _ _ _ (by rw [headerForWork_fst] at hne; exact hne)]
            exact mfind_merase_self _ _
      | cons r2 rs2 =>
          have hk2 : 2 ≤ (r :: r2 :: rs2).length := by simp
          have hqp : s.memProgress ≠ p :=
            mod_shift_ne e.headerForWorkMemory p s.memProgress
              (r :: r2 :: rs2).length hM hp hq hk2 hkM hA
          show mfind ((headerForWorkRun e (headerForWork e s r).2.2
            (r2 :: rs2))).blockMem h = none ∧ _
          apply ih (headerForWork e s r).2.2
          · simp
          · simp only [List.length_cons] at hkM ⊢
            omega
          · rw [headerForWork_state]
            dsimp only
            rw [wrap_eq_mod e.headerForWorkMemory s.memProgress hM hq]
            exact Nat.mod_lt _ hM
          · rw [headerForWork_state]
            dsimp only
            rw [wrap_eq_mod e.headerForWorkMemory s.memProgress hM hq]
            rw [show (r2 :: rs2).length = (r :: r2 :: rs2).length - 1 from by simp]
            rw [mod_step e.headerForWorkMemory s.memProgress
              (r :: r2 :: rs2).length hM hq (by simp)]
            exact hA
          · rw [headerForWork_state]
            dsimp only
            rw [mfind_minsert_ne _ _ _ _ (fun he => hqp he.symm)]
            exact hhm
          · exact hnot'

/-- C10: `SubmitHeader` looks up the miner's header/block memory using the
submitted header with its nonce zeroed, so a header solved with any nonce
still matches the entry stored by `HeaderForWork` (whose headers carry the
zero nonce); when the zero-nonce header is absent from the memory,
`SubmitHeader` returns an error and submits no block, and each
`HeaderForWork` call causes such absence by replacing the entry stored
`headerForWorkMemory` requests ago (the one at ring slot `memProgress`,
the slots advancing cyclically modulo `headerForWorkMemory`): after
`headerForWorkMemory` further `HeaderForWork` calls, none of which
regenerates the same header, the stored entry has been evicted from both
maps; when the header is present, `SubmitHeader` submits the block
assembled from the stored block, the stored randomized transaction, and
the submitted header's nonce. -/
theorem C10_submitHeader_zero_nonce_lookup (e : Ext) (m : MinerState)
    (bh : BlockHeader) (rand : Nat)
    (hinv : ∀ p ∈ m.blockMem, (Prod.snd p).nonce = 0) :
    (∀ n, ((submitHeader m { bh with nonce := n }).1).isSome =
        ((submitHeader m bh).1).isSome)
    ∧ ((mfind m.blockMem (zeroNonceOf bh) = none ∨
          mfind m.randTxnMem (zeroNonceOf bh) = none) →
        submitHeader m bh = (none, m))
    ∧ (∀ b t, mfind m.blockMem (zeroNonceOf bh) = some b →
        mfind m.randTxnMem (zeroNonceOf bh) = some t →
        submitHeader m bh =
          (some (assembledBlock b t bh.nonce), { m with memProgress := 0 }))
    ∧ (∀ n, ∃ b t,
        mfind ((headerForWork e m rand).2.2).blockMem
          (headerForWork e m rand).1 = some b ∧
        mfind ((headerForWork e m rand).2.2).randTxnMem
          (headerForWork e m rand).1 = some t ∧
        submitHeader (headerForWork e m rand).2.2
            { (headerForWork e m rand).1 with nonce := n } =
          (some (assembledBlock b t n),
            { (headerForWork e m rand).2.2 with memProgress := 0 }))
    ∧ hmGet (headerForWork e m rand).2.2 m.memProgress =
        (headerForWork e m rand).1
    ∧ ((headerForWork e m rand).2.2).memProgress =
        (if m.memProgress + 1 = e.headerForWorkMemory then 0
         else m.memProgress + 1)
    ∧ ((headerForWork e m rand).1 ≠ hmGet m m.memProgress →
        mfind ((headerForWork e m rand).2.2).blockMem
          (hmGet m m.memProgress) = none ∧
        mfind ((headerForWork e m rand).2.2).randTxnMem
          (hmGet m m.memProgress) = none)
    ∧ (∀ rands : List Nat, 0 < e.headerForWorkMemory →
        m.memProgress < e.headerForWorkMemory →
        rands.length = e.headerForWorkMemory →
        (headerForWork e m rand).1 ∉
          headerForWorkRunHeaders e (headerForWork e m rand).2.2 rands →
        mfind (headerForWorkRun e (headerForWork e m rand).2.2
          rands).blockMem (headerForWork e m rand).1 = none ∧
        mfind (headerForWorkRun e (headerForWork e m rand).2.2
          rands).randTxnMem (headerForWork e m rand).1 = none) := by
  have hfb : mfind ((headerForWork e m rand).2.2).blockMem
      ((headerForWork e m rand).1) = some (headerForWorkChoice e m rand).2.1 := by
    rw [headerForWork_state, headerForWork_fst]
    exact mfind_minsert_self _ _ _
  have hft : mfind ((headerForWork e m rand).2.2).randTxnMem
      ((headerForWork e m rand).1) = some (headerForWorkChoice e m rand).2.2 := by
    rw [headerForWork_state, headerForWork_fst]
    exact mfind_minsert_self _ _ _
  have hn0 : ((headerForWork e m rand).1).nonce = 0 := by
    rw [headerForWork_fst]
    exact headerForWorkChoice_nonce e m rand hinv
  refine ⟨fun n => submitHeader_setNonce_isSome m bh n,
    fun h => submitHeader_miss m bh h,
    fun b t hb ht => submitHeader_hit m bh b t hb ht, ?_, ?_, ?_, ?_, ?_⟩
  · intro n
    have hz := setNonce_zero_eq hn0 n
    refine ⟨(headerForWorkChoice e m rand).2.1,
      (headerForWorkChoice e m rand).2.2, hfb, hft, ?_⟩
    exact submitHeader_hit _ _ _ _ (by rw [hz]; exact hfb) (by rw [hz]; exact hft)
  · simp only [hmGet, headerForWork_state, headerForWork_fst]
    rw [mfind_minsert_self]
    rfl
  · rw [headerForWork_state]
  · intro hne
    rw [headerForWork_fst] at hne
    rw [headerForWork_state]
    dsimp only
    constructor
    · rw [mfind_minsert_ne _ _ _ _ (Ne.symm hne)]
      exact mfind_merase_self _ _
    · rw [mfind_minsert_ne _ _ _ _ (Ne.symm hne)]
      exact mfind_merase_self _ _
  · intro rands hM hp hlen hnot
    apply headerForWorkRun_evicts e (headerForWork e m rand).1 m.memProgress
      hM hp rands
    · omega
    · omega
    · rw [headerForWork_state]
      dsimp only
      rw [wrap_eq_mod e.headerForWorkMemory m.memProgress hM hp]
      exact Nat.mod_lt _ hM
    · rw [headerForWork_state]
      dsimp only
      rw [wrap_eq_mod e.headerForWorkMemory m.memProgress hM hp, hlen]
      rw [Nat.add_mod_right]
      exact Nat.mod_mod_of_dvd _ (dvd_refl _)
    · rw [headerForWork_state]
      dsimp only
      exact mfind_minsert_self _ _ _
    · exact hnot

/-- Witness for C10: at the concrete state `mW`, submitting `kW` solved
with nonce 42 submits the block assembled from the stored `bW`, the stored
`tW` and nonce 42. -/
theorem C10_submitHeader_zero_nonce_lookup_witness :
    (submitHeader mW bhW).1 = some (assembledBlock bW tW 42) := by
  have h := (C10_submitHeader_zero_nonce_lookup eW mW bhW 0 (by decide)).2.2.1
    bW tW (by decide) (by decide)
  exact congrArg Prod.fst h


end Miner

namespace Renter

theorem transfer_interrupted (c : Contract) (op : PieceOp)
    (i : InjectionPoint) : transfer c op (some i) = (none, c) := by
  cases i <;> rfl

theorem transfer_clean (c : Contract) (op : PieceOp) :
    transfer c op none = (some (commitRevision c (newSession c) op),
      commitRevision c (newSession c) op) := rfl

theorem runInterrupted_id (c : Contract) :
    ∀ attempts, runInterrupted c attempts = c := by
  intro attempts
  induction attempts generalizing c with
  | nil => rfl
  | cons pr rest ih =>
      show runInterrupted (transfer c pr.1 (some pr.2)).2 rest = c
      rw [transfer_interrupted]
      exact ih c

/-- C1: every transfer interrupted at either injection point fails and
leaves the contract's on-record revision unchanged; after any sequence of
such interrupted attempts the stored revision number equals its initial
value, and a subsequent un-interrupted transfer succeeds and commits the
next revision. -/
theorem C1_interruption_safety (c : Contract)
    (attempts : List (PieceOp × InjectionPoint)) (op : PieceOp) :
    (∀ st o i, transfer st o (some i) = (none, st))
    ∧ (runInterrupted c attempts).revisionNumber = c.revisionNumber
    ∧ ((transfer (runInterrupted c attempts) op none).1).isSome = true
    ∧ (transfer (runInterrupted c attempts) op none).2.revisionNumber =
        c.revisionNumber + 1 := by
  refine ⟨fun st o i => transfer_interrupted st o i, ?_, ?_, ?_⟩ <;>
    rw [runInterrupted_id c attempts] <;> rfl

/-- C8: `setStreamCacheSize 0` is ignored (the previous value is
retained), any positive size takes effect, and the concrete 4-then-0
scenario leaves the effective size at 4. -/
theorem C8_stream_cache_size_zero_rejected (s : Settings) (n : Nat) :
    setStreamCacheSize s 0 = s
    ∧ (0 < n → (setStreamCacheSize s n).streamCacheSize = n)
    ∧ (setStreamCacheSize (setStreamCacheSize s 4) 0).streamCacheSize = 4 := by
  refine ⟨rfl, ?_, rfl⟩
  intro hn
  unfold setStreamCacheSize
  rw [if_neg (by omega)]

/-- Witness for C8 at a concrete settings value and size 7. -/
theorem C8_stream_cache_size_zero_rejected_witness :
    (setStreamCacheSize ⟨2⟩ 7).streamCacheSize = 7 :=
  (C8_stream_cache_size_zero_rejected ⟨2⟩ 7).2.1 (by decide)

theorem fetchChunk_hit (net : Nat × Nat → List Nat) (sc : StreamCache)
    (k : Nat × Nat) (v : List Nat) (h : cacheLookup sc k = some v) :
    fetchChunk net sc k = (v, cacheTouch sc k v, false) := by
  unfold fetchChunk
  rw [h]

theorem fetchChunk_capacity (net : Nat × Nat → List Nat) (sc : StreamCache)
    (k : Nat × Nat) : ((fetchChunk net sc k).2.1).capacity = sc.capacity := by
  unfold fetchChunk
  cases h : cacheLookup sc k <;> rfl

theorem fetchChunk_present (net : Nat × Nat → List Nat) (sc : StreamCache)
    (k : Nat × Nat) (hcap : 1 ≤ sc.capacity) :
    cacheLookup (fetchChunk net sc k).2.1 k =
      some (fetchChunk net sc k).1 := by
  unfold fetchChunk
  cases h : cacheLookup sc k with
  | some v => simp [cacheLookup, cacheTouch, mfind]
  | none =>
      cases hc : sc.capacity with
      | zero => omega
      | succ cap => simp [cacheLookup, cacheInsert, hc, mfind]

theorem repeatedFetchCount_cached (net : Nat × Nat → List Nat)
    (k : Nat × Nat) :
    ∀ n sc, 1 ≤ sc.capacity → (cacheLookup sc k).isSome = true →
      repeatedFetchCount net sc k n = 0 := by
  intro n
  induction n with
  | zero => intro sc _ _; rfl
  | succ n ih =>
      intro sc hcap hsome
      obtain ⟨v, hv⟩ := Option.isSome_iff_exists.1 hsome
      show (if (fetchChunk net sc k).2.2 then 1 else 0) +
        repeatedFetchCount net (fetchChunk net sc k).2.1 k n = 0
      rw [fetchChunk_hit net sc k v hv]
      have h2 : cacheLookup (cacheTouch sc k v) k = some v := by
        simp [cacheLookup, cacheTouch, mfind]
      rw [ih (cacheTouch sc k v) hcap (by rw [h2]; rfl)]
      rfl

theorem repeatedFetchCount_le_one (net : Nat × Nat → List Nat)
    (k : Nat × Nat) :
    ∀ n sc, 1 ≤ sc.capacity → repeatedFetchCount net sc k n ≤ 1 := by
  intro n
  cases n with
  | zero => intro sc _; exact Nat.zero_le 1
  | succ n =>
      intro sc hcap
      show (if (fetchChunk net sc k).2.2 then 1 else 0) +
        repeatedFetchCount net (fetchChunk net sc k).2.1 k n ≤ 1
      have hrest : repeatedFetchCount net (fetchChunk net sc k).2.1 k n = 0 := by
        apply repeatedFetchCount_cached net k n
        · rw [fetchChunk_capacity]; exact hcap
        · rw [fetchChunk_present net sc k hcap]; rfl
      rw [hrest]
      split <;> omega

/-- C9: with the cache enabled, a cache hit performs no network fetch, and
any sequence of repeated `streamRange` requests for the same chunk fetches
and decodes that chunk from the network at most once (and not at all if it
is already cached); the chunk is never evicted by these requests. -/
theorem C9_repeated_stream_fetches_once (net : Nat × Nat → List Nat)
    (sc : StreamCache) (k : Nat × Nat) (n : Nat) (v : List Nat) :
    (cacheLookup sc k = some v →
      fetchChunk net sc k = (v, cacheTouch sc k v, false))
    ∧ (1 ≤ sc.capacity → (cacheLookup sc k).isSome = true →
        repeatedFetchCount net sc k n = 0)
    ∧ (1 ≤ sc.capacity → repeatedFetchCount net sc k n ≤ 1) :=
  ⟨fun h => fetchChunk_hit net sc k v h,
   fun hcap hsome => repeatedFetchCount_cached net k n sc hcap hsome,
   fun hcap => repeatedFetchCount_le_one net k n sc hcap⟩

/-- Witness for C9: three repeated requests on an initially empty
two-chunk cache fetch the chunk at most once. -/
theorem C9_repeated_stream_fetches_once_witness :
    repeatedFetchCount (fun _ => [1]) ⟨2, []⟩ (0, 0) 3 ≤ 1 :=
  (C9_repeated_stream_fetches_once (fun _ => [1]) ⟨2, []⟩ (0, 0) 3 []).2.2
    (by decide)

theorem processHeight_not_good (cfg : CMConfig) (period : Nat)
    (c : MContract) (h : Nat) (r : Bool) (hg : c.goodForRenew = false) :
    processHeight cfg period c h r = c := by
  unfold processHeight
  rw [if_pos]
  simp [hg]

theorem failingRun_good_state (cfg : CMConfig) (period : Nat) (c : MContract)
    (h0 : Nat) (hg : c.goodForRenew = true) (hf : c.renewFailures = 0)
    (hw : c.endHeight ≤ h0 + cfg.renewWindow) :
    ∀ n, (failingRun cfg period c h0 n).goodForRenew = true →
      failingRun cfg period c h0 n = ⟨c.endHeight, true, n⟩ ∧
      ∀ j < n, j + 1 < cfg.maxRenewFailures ∧
        h0 + j + cfg.renewWindow / 2 < c.endHeight := by
  intro n
  induction n with
  | zero =>
      intro _
      refine ⟨?_, by omega⟩
      cases c
      simp_all [failingRun]
  | succ n ih =>
      intro hgood
      have hsg : (failingRun cfg period c h0 n).goodForRenew = true := by
        by_contra hbad
        rw [show failingRun cfg period c h0 (n + 1) =
          processHeight cfg period (failingRun cfg period c h0 n) (h0 + n)
            false from rfl] at hgood
        rw [processHeight_not_good _ _ _ _ _ (Bool.eq_false_iff.2 hbad)] at hgood
        exact hbad hgood
      obtain ⟨hst, hfacts⟩ := ih hsg
      have hstep : failingRun cfg period c h0 (n + 1) =
          processHeight cfg period (⟨c.endHeight, true, n⟩ : MContract)
            (h0 + n) false := by
        rw [show failingRun cfg period c h0 (n + 1) =
          processHeight cfg period (failingRun cfg period c h0 n) (h0 + n)
            false from rfl, hst]
      by_cases htrig : cfg.maxRenewFailures ≤ n + 1 ∨
          c.endHeight ≤ h0 + n + cfg.renewWindow / 2
      · exfalso
        rw [hstep] at hgood
        unfold processHeight at hgood
        rw [if_neg (by simp), if_neg (by simp; omega), if_neg (by simp)] at hgood
        rw [if_pos (by simpa using htrig)] at hgood
        simp at hgood
      · push_neg at htrig
        constructor
        · rw [hstep]
          unfold processHeight
          rw [if_neg (by simp), if_neg (by simp; omega), if_neg (by simp)]
          rw [if_neg (by simp; omega)]
        · intro j hj
          rcases Nat.lt_succ_iff_lt_or_eq.1 hj with hj' | rfl
          · exact hfacts j hj'
          · exact ⟨htrig.1, htrig.2⟩

theorem failingRun_ok_state (cfg : CMConfig) (period : Nat) (c : MContract)
    (h0 : Nat) (hg : c.goodForRenew = true) (hf : c.renewFailures = 0)
    (hw : c.endHeight ≤ h0 + cfg.renewWindow) :
    ∀ n, (∀ j < n, j + 1 < cfg.maxRenewFailures ∧
        h0 + j + cfg.renewWindow / 2 < c.endHeight) →
      failingRun cfg period c h0 n = ⟨c.endHeight, true, n⟩ := by
  intro n
  induction n with
  | zero =>
      intro _
      cases c
      simp_all [failingRun]
  | succ n ih =>
      intro hok
      have hst := ih (fun j hj => hok j (by omega))
      have hn := hok n (by omega)
      rw [show failingRun cfg period c h0 (n + 1) =
        processHeight cfg period (failingRun cfg period c h0 n) (h0 + n)
          false from rfl, hst]
      unfold processHeight
      rw [if_neg (by simp), if_neg (by simp; omega), if_neg (by simp)]
      rw [if_neg (by simp; omega)]

theorem processHeight_fail_endHeight (cfg : CMConfig) (period : Nat)
    (c : MContract) (h : Nat) :
    (processHeight cfg period c h false).endHeight = c.endHeight := by
  unfold processHeight
  split
  · rfl
  · split
    · rfl
    · rw [if_neg (by simp)]
      dsimp only
      split <;> rfl

theorem failingRun_endHeight (cfg : CMConfig) (period : Nat) (c : MContract)
    (h0 : Nat) : ∀ n, (failingRun cfg period c h0 n).endHeight = c.endHeight := by
  intro n
  induction n with
  | zero => rfl
  | succ n ih =>
      rw [show failingRun cfg period c h0 (n + 1) =
        processHeight cfg period (failingRun cfg period c h0 n) (h0 + n)
          false from rfl]
      rw [processHeight_fail_endHeight]
      exact ih

/-- C5: a contract under consecutively failing renewal attempts (starting
inside the renew window with a clean failure counter) remains
`goodForRenew` exactly until the configured failure count is reached or
the height comes within half of the renew window of the end height,
whichever triggers sooner; its end height never changes; in particular it
is still `goodForRenew` after the failing attempt at the start of the
renew window. -/
theorem C5_renew_failure_keeps_goodForRenew (cfg : CMConfig) (period : Nat)
    (c : MContract) (h0 n : Nat) (hg : c.goodForRenew = true)
    (hf : c.renewFailures = 0) (hw : c.endHeight ≤ h0 + cfg.renewWindow) :
    ((failingRun cfg period c h0 n).goodForRenew = true ↔
      ∀ j < n, j + 1 < cfg.maxRenewFailures ∧
        h0 + j + cfg.renewWindow / 2 < c.endHeight)
    ∧ (failingRun cfg period c h0 n).endHeight = c.endHeight
    ∧ (1 < cfg.maxRenewFailures → h0 + cfg.renewWindow / 2 < c.endHeight →
        (failingRun cfg period c h0 1).goodForRenew = true) := by
  refine ⟨⟨?_, ?_⟩, failingRun_endHeight cfg period c h0 n, ?_⟩
  · intro hgood
    exact (failingRun_good_state cfg period c h0 hg hf hw n hgood).2
  · intro hok
    rw [failingRun_ok_state cfg period c h0 hg hf hw n hok]
  · intro hmax hhalf
    rw [failingRun_ok_state cfg period c h0 hg hf hw 1
      (fun j hj => by
        have hj0 : j = 0 := by omega
        subst hj0
        exact ⟨hmax, by omega⟩)]

/-- Witness for C5: with a renew window of 50, a failure limit of 3 and
end height 120, a contract is still `goodForRenew` after two failing
attempts at heights 70 and 71. -/
theorem C5_renew_failure_keeps_goodForRenew_witness :
    (failingRun ⟨50, 3⟩ 100 ⟨120, true, 0⟩ 70 2).goodForRenew = true :=
  (C5_renew_failure_keeps_goodForRenew ⟨50, 3⟩ 100 ⟨120, true, 0⟩ 70 2
    rfl rfl (by decide)).1.mpr (by decide)

theorem markFailed_no_hit (cs : List SetContract) (h : Nat)
    (hno : ∀ c ∈ cs, c.host ≠ h) : markFailed cs h = cs := by
  induction cs with
  | nil => rfl
  | cons d rest ih =>
      have hd : d.host ≠ h := hno d (List.mem_cons_self d rest)
      simp only [markFailed, List.map_cons, if_neg hd]
      rw [show List.map (fun c => if c.host = h then
        { c with goodForRenew := false } else c) rest = markFailed rest h
        from rfl]
      rw [ih (fun c hc => hno c (List.mem_cons_of_mem d hc))]

theorem goodCount_cons (d : SetContract) (l : List SetContract) :
    goodCount (d :: l) = (if d.goodForRenew then 1 else 0) + goodCount l := by
  by_cases hd : d.goodForRenew <;>
    simp [goodCount, List.filter_cons, hd, Nat.add_comm]

theorem goodCount_append (l1 l2 : List SetContract) :
    goodCount (l1 ++ l2) = goodCount l1 + goodCount l2 := by
  simp [goodCount, List.filter_append]

theorem markFailed_goodCount (h : Nat) :
    ∀ cs : List SetContract, (cs.map SetContract.host).Nodup →
      (∃ c ∈ cs, c.host = h ∧ c.goodForRenew = true) →
      goodCount (markFailed cs h) + 1 = goodCount cs := by
  intro cs
  induction cs with
  | nil => intro _ hmem; simp at hmem
  | cons d rest ih =>
      intro hnd hmem
      rw [List.map_cons, List.nodup_cons] at hnd
      by_cases hd : d.host = h
      · have hrest : ∀ c ∈ rest, c.host ≠ h := by
          intro c hc he
          exact hnd.1 (hd ▸ he ▸ List.mem_map_of_mem SetContract.host hc)
        have hdg : d.goodForRenew = true := by
          obtain ⟨c0, hc0, hh, hgg⟩ := hmem
          rcases List.mem_cons.1 hc0 with rfl | hc0r
          · exact hgg
          · exact absurd hh (hrest c0 hc0r)
        simp only [markFailed, List.map_cons, if_pos hd]
        rw [show List.map (fun c => if c.host = h then
          { c with goodForRenew := false } else c) rest = markFailed rest h
          from rfl]
        rw [markFailed_no_hit rest h hrest, goodCount_cons, goodCount_cons]
        simp [hdg]
        omega
      · have hmem' : ∃ c ∈ rest, c.host = h ∧ c.goodForRenew = true := by
          obtain ⟨c0, hc0, hh, hgg⟩ := hmem
          rcases List.mem_cons.1 hc0 with rfl | hc0r
          · exact absurd hh hd
          · exact ⟨c0, hc0r, hh, hgg⟩
        simp only [markFailed, List.map_cons, if_neg hd]
        rw [show List.map (fun c => if c.host = h then
          { c with goodForRenew := false } else c) rest = markFailed rest h
          from rfl]
        rw [goodCount_cons, goodCount_cons]
        have := ih hnd.2 hmem'
        omega

theorem markFailed_hits (cs : List SetContract) (h : Nat) :
    ∀ c ∈ markFailed cs h, c.host = h → c.goodForRenew = false := by
  intro c hc hch
  simp only [markFailed, List.mem_map] at hc
  obtain ⟨d, hd, hde⟩ := hc
  by_cases hdh : d.host = h
  · rw [← hde, if_pos hdh]
  · rw [← hde, if_neg hdh] at hch
    exact absurd hch hdh

theorem markFailed_other (cs : List SetContract) (h : Nat) :
    ∀ c ∈ cs, c.host ≠ h → c ∈ markFailed cs h := by
  intro c hc hne
  simp only [markFailed, List.mem_map]
  exact ⟨c, hc, by rw [if_neg hne]⟩

theorem replaceFailedHost_pos (cs : List SetContract) (h fresh : Nat)
    (hmem : ∃ c ∈ cs, c.host = h ∧ c.goodForRenew = true) :
    replaceFailedHost cs h fresh = markFailed cs h ++ [⟨fresh, true⟩] := by
  unfold replaceFailedHost
  rw [if_pos]
  obtain ⟨c0, hc0, hh, hg⟩ := hmem
  simp only [List.any_eq_true, Bool.and_eq_true, decide_eq_true_eq]
  exact ⟨c0, hc0, hh, hg⟩

theorem replaceFailedHost_neg (cs : List SetContract) (h fresh : Nat)
    (hnone : ∀ c ∈ cs, c.host = h → c.goodForRenew = false) :
    replaceFailedHost cs h fresh = cs := by
  unfold replaceFailedHost
  rw [if_neg]
  simp only [List.any_eq_true, Bool.and_eq_true, decide_eq_true_eq, not_exists]
  intro c
  rw [not_and]
  intro hc ⟨hch, hcg⟩
  rw [hnone c hc hch] at hcg
  exact Bool.false_ne_true hcg

/-- C6: when a host becomes permanently unresponsive, exactly its contract
transitions to `!goodForRenew` and exactly once (a second replacement
attempt for the same host is a no-op); every other contract is untouched;
exactly one replacement contract with a different host is formed; and the
count of active `goodForRenew` contracts returns to the allowance's
target. -/
theorem C6_failed_host_replaced_once (cs : List SetContract)
    (hf fresh target : Nat)
    (hnd : (cs.map SetContract.host).Nodup)
    (hmem : ∃ c ∈ cs, c.host = hf ∧ c.goodForRenew = true)
    (hfr : fresh ∉ cs.map SetContract.host)
    (htarget : goodCount cs = target) :
    goodCount (replaceFailedHost cs hf fresh) = target
    ∧ (replaceFailedHost cs hf fresh).length = cs.length + 1
    ∧ (∀ c ∈ replaceFailedHost cs hf fresh, c.host = hf →
        c.goodForRenew = false)
    ∧ (∀ c ∈ cs, c.host ≠ hf → c ∈ replaceFailedHost cs hf fresh)
    ∧ SetContract.mk fresh true ∈ replaceFailedHost cs hf fresh
    ∧ ∀ fresh2, replaceFailedHost (replaceFailedHost cs hf fresh) hf fresh2 =
        replaceFailedHost cs hf fresh := by
  have hres := replaceFailedHost_pos cs hf fresh hmem
  have hfne : fresh ≠ hf := by
    obtain ⟨c0, hc0, hh, _⟩ := hmem
    intro he
    exact hfr (he ▸ hh ▸ List.mem_map_of_mem SetContract.host hc0)
  refine ⟨?_, ?_, ?_, ?_, ?_, ?_⟩
  · rw [hres, goodCount_append]
    have h1 := markFailed_goodCount hf cs hnd hmem
    have h2 : goodCount [(⟨fresh, true⟩ : SetContract)] = 1 := rfl
    omega
  · rw [hres]
    simp [markFailed]
  · rw [hres]
    intro c hc hch
    rcases List.mem_append.1 hc with hc1 | hc2
    · exact markFailed_hits cs hf c hc1 hch
    · rw [List.mem_singleton.1 hc2] at hch
      exact absurd hch hfne
  · rw [hres]
    intro c hc hne
    exact List.mem_append_left _ (markFailed_other cs hf c hc hne)
  · rw [hres]
    exact List.mem_append_right _ (List.mem_singleton.2 rfl)
  · intro f2
    rw [hres]
    apply replaceFailedHost_neg
    intro c hc hch
    rcases List.mem_append.1 hc with hc1 | hc2
    · exact markFailed_hits cs hf c hc1 hch
    · rw [List.mem_singleton.1 hc2] at hch
      exact absurd hch hfne

/-- Witness for C6: replacing failed host 1 out of two active contracts
with fresh host 5 keeps the active contract count at 2. -/
theorem C6_failed_host_replaced_once_witness :
    goodCount (replaceFailedHost [⟨1, true⟩, ⟨2, true⟩] 1 5) = 2 :=
  (C6_failed_host_replaced_once [⟨1, true⟩, ⟨2, true⟩] 1 5 2 (by decide)
    ⟨⟨1, true⟩, by decide, rfl, rfl⟩ (by decide) rfl).1

theorem zip_map_fst {α β : Type} :
    ∀ (l1 : List α) (l2 : List β),
      (l1.zip l2).map Prod.fst = l1.take l2.length
  | [], _ => by simp
  | _ :: _, [] => by simp
  | a :: l1, b :: l2 => by simp [zip_map_fst l1 l2]

theorem zip_map_snd {α β : Type} :
    ∀ (l1 : List α) (l2 : List β),
      (l1.zip l2).map Prod.snd = l2.take l1.length
  | [], _ => by simp
  | _ :: _, [] => by simp
  | a :: l1, b :: l2 => by simp [zip_map_snd l1 l2]

theorem mapM_eq_some_map {α β : Type} (f : α → Option β) (g : α → β) :
    ∀ l : List α, (∀ a ∈ l, f a = some (g a)) → l.mapM f = some (l.map g)
  | [], _ => rfl
  | a :: l, h => by
      rw [List.mapM_cons, h a (List.mem_cons_self a l),
        mapM_eq_some_map f g l (fun b hb => h b (List.mem_cons_of_mem a hb))]
      rfl

theorem mapM_eq_none {α β : Type} (f : α → Option β) :
    ∀ (l : List α) (a : α), a ∈ l → f a = none → l.mapM f = none := by
  intro l
  induction l with
  | nil => intro a ha _; simp at ha
  | cons b l ih =>
      intro a ha hfa
      rw [List.mapM_cons]
      rcases List.mem_cons.1 ha with rfl | ha'
      · rw [hfa]; rfl
      · cases hb : f b
        · rfl
        · rw [ih a ha' hfa]; rfl

theorem mapM_map_comp {α β γ : Type} (g : α → β) (f : β → Option γ) :
    ∀ l : List α, (l.map g).mapM f = l.mapM (fun a => f (g a))
  | [] => rfl
  | a :: l => by
      rw [List.map_cons, List.mapM_cons, List.mapM_cons, mapM_map_comp g f l]

theorem length_filter_comp {α β : Type} (f : α → β) (p : β → Bool) :
    ∀ l : List α,
      ((l.map f).filter p).length = (l.filter (fun a => p (f a))).length
  | [] => rfl
  | a :: l => by
      by_cases hp : p (f a) <;>
        simp [List.filter_cons, hp, length_filter_comp f p l]

theorem length_filter_ne (r : Nat) :
    ∀ H : List Nat, H.Nodup → r ∈ H →
      (H.filter (fun h => decide (h ≠ r))).length + 1 = H.length := by
  intro H
  induction H with
  | nil => intro _ hr; simp at hr
  | cons a rest ih =>
      intro hnd hr
      rw [List.nodup_cons] at hnd
      by_cases ha : a = r
      · subst ha
        have hall : ∀ x ∈ rest, decide (x ≠ a) = true := by
          intro x hx
          simp only [decide_eq_true_eq]
          intro he
          exact hnd.1 (he ▸ hx)
        rw [List.filter_cons, if_neg (by simp), List.filter_eq_self.mpr hall]
        simp
      · have hr' : r ∈ rest := by
          rcases List.mem_cons.1 hr with he | hr'
          · exact absurd he.symm ha
          · exact hr'
        rw [List.filter_cons, if_pos (by simp [ha])]
        simp only [List.length_cons]
        have := ih hnd.2 hr'
        omega

theorem length_le_filter_ne_add_one (r : Nat) (H : List Nat)
    (hnd : H.Nodup) :
    H.length ≤ (H.filter (fun h => decide (h ≠ r))).length + 1 := by
  by_cases hr : r ∈ H
  · have := length_filter_ne r H hnd hr
    omega
  · rw [List.filter_eq_self.mpr]
    · omega
    · intro x hx
      simp only [decide_eq_true_eq]
      intro he
      exact hr (he ▸ hx)

theorem length_le_filter_not_mem_add :
    ∀ (R H : List Nat), H.Nodup →
      H.length ≤ (H.filter (fun h => decide (h ∉ R))).length + R.length := by
  intro R
  induction R with
  | nil =>
      intro H _
      rw [List.filter_eq_self.mpr (by simp)]
      simp
  | cons r R ih =>
      intro H hnd
      have hsplit : H.filter (fun h => decide (h ∉ r :: R)) =
          (H.filter (fun h => decide (h ∉ R))).filter
            (fun h => decide (h ≠ r)) := by
        rw [List.filter_filter]
        apply List.filter_congr
        intro x _
        by_cases h1 : x = r <;> by_cases h2 : x ∈ R <;>
          simp [h1, h2, List.mem_cons]
      have h1 := ih H hnd
      have hnd2 : (H.filter (fun h => decide (h ∉ R))).Nodup :=
        hnd.sublist (List.filter_sublist H)
      have h2 := length_le_filter_ne_add_one r
        (H.filter (fun h => decide (h ∉ R))) hnd2
      rw [hsplit]
      simp only [List.length_cons]
      omega

theorem chunksGo_segment (c : Nat) (hc : 0 < c) :
    ∀ (fuel : Nat) (X : List Nat) (lo cnt : Nat), X.length ≤ fuel →
      (((chunksGo c fuel X).drop lo).take cnt).flatten =
        (X.drop (lo * c)).take (cnt * c) := by
  intro fuel
  induction fuel with
  | zero =>
      intro X lo cnt hlen
      have hX : X = [] := List.eq_nil_of_length_eq_zero (by omega)
      subst hX
      simp [chunksGo]
  | succ fuel ih =>
      intro X lo cnt hlen
      cases X with
      | nil => simp [chunksGo]
      | cons x xs =>
          rw [show chunksGo c (fuel + 1) (x :: xs) =
            (x :: xs).take c :: chunksGo c fuel ((x :: xs).drop c) from rfl]
          cases lo with
          | zero =>
              cases cnt with
              | zero => simp
              | succ cnt =>
                  rw [List.drop_zero, List.take_succ_cons, List.flatten_cons]
                  have hrec := ih ((x :: xs).drop c) 0 cnt
                    (by
                      simp only [List.length_drop, List.length_cons] at hlen ⊢
                      omega)
                  rw [List.drop_zero] at hrec
                  rw [Nat.zero_mul, List.drop_zero] at hrec
                  rw [hrec, Nat.zero_mul, List.drop_zero, Nat.succ_mul,
                    Nat.add_comm (cnt * c) c, List.take_add]
          | succ lo =>
              rw [List.drop_succ_cons]
              have hrec := ih ((x :: xs).drop c) lo cnt
                (by
                  simp only [List.length_drop, List.length_cons] at hlen ⊢
                  omega)
              rw [hrec, List.drop_drop]
              congr 2
              rw [Nat.succ_mul]
              omega

theorem chunksGo_length_mul (c : Nat) (hc : 0 < c) :
    ∀ (fuel : Nat) (X : List Nat), X.length ≤ fuel →
      X.length ≤ (chunksGo c fuel X).length * c := by
  intro fuel
  induction fuel with
  | zero => intro X h; simp at h; simp [h]
  | succ fuel ih =>
      intro X h
      cases X with
      | nil => simp
      | cons x xs =>
          rw [show chunksGo c (fuel + 1) (x :: xs) =
            (x :: xs).take c :: chunksGo c fuel ((x :: xs).drop c) from rfl]
          simp only [List.length_cons]
          have hrec := ih ((x :: xs).drop c)
            (by
              simp only [List.length_drop, List.length_cons] at h ⊢
              omega)
          have hdl : ((x :: xs).drop c).length = (x :: xs).length - c := by
            simp
          rw [Nat.succ_mul]
          simp only [List.length_cons] at hdl ⊢
          omega

theorem chunkify_segment (c : Nat) (hc : 0 < c) (X : List Nat)
    (lo cnt : Nat) :
    (((chunkify c X).drop lo).take cnt).flatten =
      (X.drop (lo * c)).take (cnt * c) :=
  chunksGo_segment c hc X.length X lo cnt le_rfl

theorem chunkify_flatten (c : Nat) (hc : 0 < c) (X : List Nat) :
    (chunkify c X).flatten = X := by
  have h := chunkify_segment c hc X 0 (chunkify c X).length
  rw [List.drop_zero, List.take_length, Nat.zero_mul, List.drop_zero] at h
  rw [h]
  apply List.take_of_length_le
  exact chunksGo_length_mul c hc X.length X le_rfl

theorem chunkify_ne_nil (c : Nat) (X : List Nat) (hX : X ≠ []) :
    chunkify c X ≠ [] := by
  cases X with
  | nil => exact absurd rfl hX
  | cons x xs =>
      intro h
      rw [show chunkify c (x :: xs) =
        (x :: xs).take c :: chunksGo c xs.length ((x :: xs).drop c)
        from rfl] at h
      exact List.cons_ne_nil _ _ h

theorem encodeChunk_pieces_hosts (cd : Codec) (D P : Nat)
    (hosts plain : List Nat) :
    (encodeChunk cd D P hosts plain).pieces.map Piece.host =
      hosts.take (D + P) := by
  show (((cd.encode D P plain).enum.zip hosts).map _).map Piece.host = _
  rw [List.map_map]
  rw [show (Piece.host ∘ fun pr : (Nat × List Nat) × Nat =>
    (⟨pr.1.1, pr.2, pr.1.2⟩ : Piece)) = Prod.snd from rfl]
  rw [zip_map_snd, List.enum_length, cd.encode_length]

theorem encodeChunk_pieces_idx (cd : Codec) (D P : Nat)
    (hosts plain : List Nat) :
    (encodeChunk cd D P hosts plain).pieces.map Piece.pieceIndex =
      (List.range (D + P)).take hosts.length := by
  show (((cd.encode D P plain).enum.zip hosts).map _).map Piece.pieceIndex = _
  rw [List.map_map]
  rw [show (Piece.pieceIndex ∘ fun pr : (Nat × List Nat) × Nat =>
    (⟨pr.1.1, pr.2, pr.1.2⟩ : Piece)) = Prod.fst ∘ Prod.fst from rfl]
  rw [← List.map_map, zip_map_fst, List.map_take, List.enum_map_fst,
    cd.encode_length]

theorem encodeChunk_idx_nodup (cd : Codec) (D P : Nat)
    (hosts plain : List Nat) :
    ((encodeChunk cd D P hosts plain).pieces.map Piece.pieceIndex).Nodup := by
  rw [encodeChunk_pieces_idx]
  exact (List.nodup_range _).sublist (List.take_sublist _ _)

theorem encodeChunk_valid (cd : Codec) (D P : Nat) (hosts plain : List Nat) :
    ∀ p ∈ (encodeChunk cd D P hosts plain).pieces,
      (cd.encode D P plain)[p.pieceIndex]? = some p.data := by
  intro p hp
  simp only [encodeChunk, List.mem_map] at hp
  obtain ⟨pr, hpr, hpe⟩ := hp
  obtain ⟨⟨i, d⟩, h⟩ := pr
  have hmem := (List.of_mem_zip hpr).1
  have hget := List.mem_enum_iff_getElem?.1 hmem
  rw [← hpe]
  exact hget

theorem retrievable_sublist (alive : Nat → Bool) (ch : Chunk) :
    List.Sublist (retrievable alive ch) ch.pieces :=
  List.filter_sublist _

theorem encodeChunk_ok (cd : Codec) (D P : Nat) (hosts plain : List Nat)
    (alive : Nat → Bool) :
    ChunkOK cd D P alive plain (encodeChunk cd D P hosts plain) := by
  constructor
  · exact (encodeChunk_idx_nodup cd D P hosts plain).sublist
      ((retrievable_sublist alive _).map Piece.pieceIndex)
  · intro p hp
    exact encodeChunk_valid cd D P hosts plain p (List.mem_of_mem_filter hp)

theorem downloadChunk_ok (cd : Codec) (D P : Nat) (alive : Nat → Bool)
    (plain : List Nat) (ch : Chunk) (hD : 0 < D)
    (hok : ChunkOK cd D P alive plain ch)
    (hh : D ≤ chunkHealth alive ch) :
    downloadChunk cd D alive ch = some plain := by
  unfold chunkHealth at hh
  unfold downloadChunk
  rw [if_neg (by omega)]
  apply cd.decode_encode D P plain _ hD
  · rw [List.map_map]
    rw [show (Prod.fst ∘ fun p : Piece => (p.pieceIndex, p.data)) =
      Piece.pieceIndex from rfl]
    exact hok.1.sublist ((List.take_sublist _ _).map Piece.pieceIndex)
  · rw [List.length_map, List.length_take]
    omega
  · intro pr hpr
    simp only [List.mem_map] at hpr
    obtain ⟨p, hp, hpe⟩ := hpr
    rw [← hpe]
    exact hok.2 p (List.mem_of_mem_take hp)

theorem chunkHealth_encodeChunk (cd : Codec) (D P : Nat)
    (hosts plain : List Nat) (alive : Nat → Bool) :
    chunkHealth alive (encodeChunk cd D P hosts plain) =
      ((hosts.take (D + P)).filter alive).length := by
  unfold chunkHealth retrievable
  rw [show (fun p : Piece => alive p.host) =
    (fun p : Piece => alive (Piece.host p)) from rfl]
  rw [← length_filter_comp Piece.host alive, encodeChunk_pieces_hosts]

theorem foldl_min_const :
    ∀ (l : List Nat) (k : Nat), (∀ x ∈ l, x = k) → l.foldl min k = k
  | [], _, _ => rfl
  | a :: l, k, h => by
      rw [List.foldl_cons, h a (List.mem_cons_self a l), min_self]
      exact foldl_min_const l k (fun x hx => h x (List.mem_cons_of_mem a hx))

theorem foldl_min_ge :
    ∀ (l : List Nat) (a k : Nat), k ≤ a → (∀ x ∈ l, k ≤ x) →
      k ≤ l.foldl min a
  | [], _, _, ha, _ => ha
  | b :: l, a, k, ha, h => by
      rw [List.foldl_cons]
      exact foldl_min_ge l (min a b) k
        (le_min ha (h b (List.mem_cons_self b l)))
        (fun x hx => h x (List.mem_cons_of_mem b hx))

theorem fileHealth_eq_of_const (alive : Nat → Bool) (f : RFile) (k : Nat)
    (hne : f.chunks ≠ [])
    (hall : ∀ ch ∈ f.chunks, chunkHealth alive ch = k) :
    fileHealth alive f = some k := by
  unfold fileHealth
  cases hch : f.chunks with
  | nil => exact absurd hch hne
  | cons a l =>
      rw [List.map_cons, hall a (hch ▸ List.mem_cons_self a l)]
      dsimp only
      congr 1
      apply foldl_min_const
      intro x hx
      simp only [List.mem_map] at hx
      obtain ⟨ch, hc, he⟩ := hx
      rw [← he]
      exact hall ch (hch ▸ List.mem_cons_of_mem a hc)

theorem downloadChunk_encodeChunk_all (cd : Codec) (D P : Nat)
    (hosts plain : List Nat) (hD : 0 < D) (hlen : D + P ≤ hosts.length) :
    downloadChunk cd D (fun _ => true) (encodeChunk cd D P hosts plain) =
      some plain := by
  apply downloadChunk_ok cd D P _ plain _ hD
    (encodeChunk_ok cd D P hosts plain _)
  rw [chunkHealth_encodeChunk]
  rw [List.filter_eq_self.mpr (fun x _ => rfl), List.length_take]
  omega

/-- C2: uploading byte content `X` with valid erasure parameters and then
fully downloading it returns exactly `X`, and streaming any partial range
`[a, b)` with `a < b ≤ |X|` returns exactly the bytes `X[a..b)`. -/
theorem C2_upload_download_roundtrip (cd : Codec) (hosts : List Nat)
    (D P csz : Nat) (X : List Nat) (hD : 0 < D) (hcsz : 0 < csz)
    (hlen : D + P ≤ hosts.length) :
    download cd (fun _ => true) (upload cd hosts D P csz X) = some X
    ∧ ∀ a b, a < b → b ≤ X.length →
        streamRange cd (fun _ => true) (upload cd hosts D P csz X) a b =
          some ((X.drop a).take (b - a)) := by
  have hchunk : ∀ plain,
      downloadChunk cd D (fun _ => true) (encodeChunk cd D P hosts plain) =
        some plain :=
    fun plain => downloadChunk_encodeChunk_all cd D P hosts plain hD hlen
  constructor
  · unfold download upload
    dsimp only
    rw [mapM_map_comp, mapM_eq_some_map _ id (chunkify csz X)
      (fun pl _ => hchunk pl)]
    simp only [List.map_id, Option.map_some']
    rw [chunkify_flatten csz hcsz]
  · intro a b hab hbX
    unfold streamRange coveringChunks upload
    dsimp only
    rw [← List.map_drop, ← List.map_take, mapM_map_comp,
      mapM_eq_some_map _ id _ (fun pl _ => hchunk pl)]
    simp only [List.map_id, Option.map_some', Option.some.injEq]
    rw [chunkify_segment csz hcsz]
    -- arithmetic: slicing the decoded segment yields exactly X[a..b)
    have h1 : a / csz * csz ≤ a := Nat.div_mul_le_self a csz
    have hb1 : b ≤ ((b - 1) / csz + 1) * csz := by
      have hdm := Nat.div_add_mod (b - 1) csz
      have hml : (b - 1) % csz < csz := Nat.mod_lt _ hcsz
      have h3 : b - 1 < csz * ((b - 1) / csz + 1) := by
        rw [Nat.mul_succ]
        calc b - 1 = csz * ((b - 1) / csz) + (b - 1) % csz := hdm.symm
        _ < csz * ((b - 1) / csz) + csz := Nat.add_lt_add_left hml _
      rw [mul_comm]
      generalize hK : csz * ((b - 1) / csz + 1) = K at h3 ⊢
      omega
    rw [List.drop_take, List.drop_drop, Nat.sub_mul]
    have h2 : a / csz * csz + (a - a / csz * csz) = a := by omega
    rw [h2]
    rw [List.take_take]
    congr 1
    generalize hU : ((b - 1) / csz + 1) * csz = U at hb1 ⊢
    generalize hS : a / csz * csz = S at h1 ⊢
    omega

/-- Witness for C2: a 3-byte file uploaded with `D = 1, P = 1` over two
hosts in 2-byte chunks round-trips in full and over the range `[1, 3)`. -/
theorem C2_upload_download_roundtrip_witness :
    download repCodec (fun _ => true)
        (upload repCodec [0, 1] 1 1 2 [7, 8, 9]) = some [7, 8, 9]
    ∧ streamRange repCodec (fun _ => true)
        (upload repCodec [0, 1] 1 1 2 [7, 8, 9]) 1 3 = some [8, 9] :=
  ⟨(C2_upload_download_roundtrip repCodec [0, 1] 1 1 2 [7, 8, 9]
      (by decide) (by decide) (by decide)).1,
   (C2_upload_download_roundtrip repCodec [0, 1] 1 1 2 [7, 8, 9]
      (by decide) (by decide) (by decide)).2 1 3 (by decide) (by decide)⟩

theorem fileHealth_ge (alive : Nat → Bool) (f : RFile) (k : Nat)
    (hne : f.chunks ≠ [])
    (hall : ∀ ch ∈ f.chunks, k ≤ chunkHealth alive ch) :
    ∃ m, fileHealth alive f = some m ∧ k ≤ m := by
  unfold fileHealth
  cases hch : f.chunks with
  | nil => exact absurd hch hne
  | cons a l =>
      rw [List.map_cons]
      refine ⟨_, rfl, ?_⟩
      apply foldl_min_ge
      · exact hall a (hch ▸ List.mem_cons_self a l)
      · intro x hx
        simp only [List.mem_map] at hx
        obtain ⟨ch, hc, he⟩ := hx
        rw [← he]
        exact hall ch (hch ▸ List.mem_cons_of_mem a hc)

theorem redundancy_of_health (alive : Nat → Bool) (f : RFile) (k : Nat)
    (hfh : fileHealth alive f = some k) :
    redundancy alive f = (k : ℚ) / (f.dataPieces : ℚ) := by
  unfold redundancy
  rw [hfh]

theorem download_upload_of_health (cd : Codec) (hosts : List Nat)
    (D P csz : Nat) (X : List Nat) (alive : Nat → Bool) (hD : 0 < D)
    (hcsz : 0 < csz)
    (hhealth : ∀ plain, D ≤ chunkHealth alive (encodeChunk cd D P hosts plain)) :
    download cd alive (upload cd hosts D P csz X) = some X := by
  unfold download upload
  dsimp only
  rw [mapM_map_comp, mapM_eq_some_map _ id (chunkify csz X)
    (fun pl _ => downloadChunk_ok cd D P alive pl _ hD
      (encodeChunk_ok cd D P hosts pl alive) (hhealth pl))]
  simp only [List.map_id, Option.map_some']
  rw [chunkify_flatten csz hcsz]

theorem upload_chunks_ne_nil (cd : Codec) (hosts : List Nat)
    (D P csz : Nat) (X : List Nat) (hX : X ≠ []) :
    (upload cd hosts D P csz X).chunks ≠ [] := by
  intro h
  simp only [upload] at h
  exact chunkify_ne_nil csz X hX (List.map_eq_nil_iff.1 h)

theorem upload_chunks_mem (cd : Codec) (hosts : List Nat) (D P csz : Nat)
    (X : List Nat) :
    ∀ ch ∈ (upload cd hosts D P csz X).chunks,
      ∃ plain, ch = encodeChunk cd D P hosts plain := by
  intro ch hch
  simp only [upload, List.mem_map] at hch
  obtain ⟨pl, _, he⟩ := hch
  exact ⟨pl, he.symm⟩

/-- C3: a freshly fully uploaded file with parameters `(D, P)` has
redundancy `(D+P)/D`; when the pieces of one used host become unavailable
every chunk's redundancy drops to `(D+P-1)/D`; and after removing any set
of up to `P` hosts the file is still downloadable in full at every
intermediate step. -/
theorem C3_redundancy_after_host_loss (cd : Codec) (hosts : List Nat)
    (D P csz : Nat) (X : List Nat) (hD : 0 < D) (hcsz : 0 < csz)
    (hnd : hosts.Nodup) (hlen : D + P ≤ hosts.length) (hX : X ≠ []) :
    redundancy (fun _ => true) (upload cd hosts D P csz X) =
      ((D + P : Nat) : ℚ) / (D : ℚ)
    ∧ (∀ r ∈ hosts.take (D + P),
        redundancy (fun h => decide (h ≠ r)) (upload cd hosts D P csz X) =
          ((D + P - 1 : Nat) : ℚ) / (D : ℚ))
    ∧ (∀ R : List Nat, R.length ≤ P →
        download cd (fun h => decide (h ∉ R)) (upload cd hosts D P csz X) =
          some X) := by
  have hne := upload_chunks_ne_nil cd hosts D P csz X hX
  have hHnd : (hosts.take (D + P)).Nodup :=
    hnd.sublist (List.take_sublist _ _)
  have hHlen : (hosts.take (D + P)).length = D + P := by
    rw [List.length_take]
    omega
  have hhealth : ∀ (alive : Nat → Bool) (ch : Chunk),
      ch ∈ (upload cd hosts D P csz X).chunks →
      chunkHealth alive ch = ((hosts.take (D + P)).filter alive).length := by
    intro alive ch hch
    obtain ⟨pl, rfl⟩ := upload_chunks_mem cd hosts D P csz X ch hch
    exact chunkHealth_encodeChunk cd D P hosts pl alive
  refine ⟨?_, ?_, ?_⟩
  · rw [redundancy_of_health _ _ (D + P)]
    · rfl
    · apply fileHealth_eq_of_const _ _ _ hne
      intro ch hch
      rw [hhealth _ ch hch, List.filter_eq_self.mpr (fun x _ => rfl), hHlen]
  · intro r hr
    rw [redundancy_of_health _ _ (D + P - 1)]
    · rfl
    · apply fileHealth_eq_of_const _ _ _ hne
      intro ch hch
      rw [hhealth _ ch hch]
      have := length_filter_ne r (hosts.take (D + P)) hHnd hr
      omega
  · intro R hR
    apply download_upload_of_health cd hosts D P csz X _ hD hcsz
    intro pl
    rw [chunkHealth_encodeChunk]
    have := length_le_filter_not_mem_add R (hosts.take (D + P)) hHnd
    omega

/-- Witness for C3: one byte uploaded with `D = 1, P = 2` over hosts
`[0, 1, 2]` is still downloadable after removing hosts 1 and 2. -/
theorem C3_redundancy_after_host_loss_witness :
    download repCodec (fun h => decide (h ∉ [1, 2]))
        (upload repCodec [0, 1, 2] 1 2 4 [5]) = some [5] :=
  (C3_redundancy_after_host_loss repCodec [0, 1, 2] 1 2 4 [5] (by decide)
    (by decide) (by decide) (by decide) (by decide)).2.2 [1, 2] (by decide)

/-- C4: whenever a chunk needed by a download (full or ranged) has fewer
than `dataPieces` retrievable pieces, the download returns a hard error
(`none`) and no partial data. -/
theorem C4_unrecoverable_chunk_hard_error (cd : Codec) (alive : Nat → Bool)
    (f : RFile) :
    (∀ ch ∈ f.chunks, chunkHealth alive ch < f.dataPieces →
      download cd alive f = none)
    ∧ (∀ a b, ∀ ch ∈ coveringChunks f a b,
        chunkHealth alive ch < f.dataPieces →
        streamRange cd alive f a b = none) := by
  have hchunk : ∀ ch, chunkHealth alive ch < f.dataPieces →
      downloadChunk cd f.dataPieces alive ch = none := by
    intro ch hlt
    unfold chunkHealth at hlt
    unfold downloadChunk
    rw [if_pos hlt]
  constructor
  · intro ch hm hlt
    unfold download
    rw [mapM_eq_none _ f.chunks ch hm (hchunk ch hlt)]
    rfl
  · intro a b ch hm hlt
    unfold streamRange
    rw [mapM_eq_none _ _ ch hm (hchunk ch hlt)]
    rfl

/-- Witness for C4: a one-chunk file whose only chunk has no retrievable
pieces downloads to a hard error. -/
theorem C4_unrecoverable_chunk_hard_error_witness :
    download repCodec (fun _ => true) ⟨1, 0, 4, [⟨[]⟩]⟩ = none :=
  (C4_unrecoverable_chunk_hard_error repCodec (fun _ => true)
    ⟨1, 0, 4, [⟨[]⟩]⟩).1 ⟨[]⟩ (by decide) (by decide)

theorem repairPieces_host_mem (cd : Codec) (D P : Nat) (alive : Nat → Bool)
    (fresh : List Nat) (t : Nat) (plain : List Nat) (ch : Chunk) :
    ∀ p ∈ repairPieces cd D P alive fresh t plain ch, p.host ∈ fresh := by
  intro p hp
  simp only [repairPieces, List.mem_map] at hp
  obtain ⟨pr, hpr, hpe⟩ := hp
  obtain ⟨i, h⟩ := pr
  rw [← hpe]
  exact (List.of_mem_zip hpr).2

theorem repairPieces_idx_mem (cd : Codec) (D P : Nat) (alive : Nat → Bool)
    (fresh : List Nat) (t : Nat) (plain : List Nat) (ch : Chunk) :
    ∀ p ∈ repairPieces cd D P alive fresh t plain ch,
      p.pieceIndex < D + P ∧
      p.pieceIndex ∉ (retrievable alive ch).map Piece.pieceIndex := by
  intro p hp
  simp only [repairPieces, List.mem_map] at hp
  obtain ⟨pr, hpr, hpe⟩ := hp
  obtain ⟨i, h⟩ := pr
  have hmem := (List.of_mem_zip hpr).1
  have hmem2 := List.mem_of_mem_take hmem
  rw [List.mem_filter] at hmem2
  rw [← hpe]
  exact ⟨List.mem_range.1 hmem2.1, by simpa using hmem2.2⟩

theorem repairPieces_valid (cd : Codec) (D P : Nat) (alive : Nat → Bool)
    (fresh : List Nat) (t : Nat) (plain : List Nat) (ch : Chunk) :
    ∀ p ∈ repairPieces cd D P alive fresh t plain ch,
      (cd.encode D P plain)[p.pieceIndex]? = some p.data := by
  intro p hp
  have hidx := (repairPieces_idx_mem cd D P alive fresh t plain ch p hp).1
  simp only [repairPieces, List.mem_map] at hp
  obtain ⟨pr, hpr, hpe⟩ := hp
  obtain ⟨i, h⟩ := pr
  rw [← hpe] at hidx ⊢
  have hlt : i < (cd.encode D P plain).length := by
    rw [cd.encode_length]
    exact hidx
  dsimp only
  rw [List.getElem?_eq_getElem hlt]
  rfl

theorem repairPieces_idx_nodup (cd : Codec) (D P : Nat) (alive : Nat → Bool)
    (fresh : List Nat) (t : Nat) (plain : List Nat) (ch : Chunk) :
    ((repairPieces cd D P alive fresh t plain ch).map
      Piece.pieceIndex).Nodup := by
  unfold repairPieces
  dsimp only
  rw [List.map_map]
  rw [show (Piece.pieceIndex ∘ fun pr : Nat × Nat =>
    (⟨pr.1, pr.2, ((cd.encode D P plain)[pr.1]?).getD []⟩ : Piece)) =
    Prod.fst from rfl]
  rw [zip_map_fst]
  have hsub := (List.take_sublist fresh.length _).trans
    (List.take_sublist (t - chunkHealth alive ch)
      ((List.range (D + P)).filter
        (fun i => decide (i ∉ (retrievable alive ch).map Piece.pieceIndex))))
  exact ((List.nodup_range (D + P)).filter _).sublist hsub

theorem repairPieces_length (cd : Codec) (D P : Nat) (alive : Nat → Bool)
    (fresh : List Nat) (t : Nat) (plain : List Nat) (ch : Chunk) :
    (repairPieces cd D P alive fresh t plain ch).length =
      min (min (t - chunkHealth alive ch)
        (((List.range (D + P)).filter
          (fun i => decide
            (i ∉ (retrievable alive ch).map Piece.pieceIndex))).length))
        fresh.length := by
  unfold repairPieces
  dsimp only
  rw [List.length_map, List.length_zip, List.length_take]

theorem retrievable_append_fresh (alive : Nat → Bool) (ch : Chunk)
    (NP : List Piece) (halive : ∀ p ∈ NP, alive p.host = true) :
    retrievable alive ⟨ch.pieces ++ NP⟩ = retrievable alive ch ++ NP := by
  unfold retrievable
  rw [List.filter_append]
  congr 1
  exact List.filter_eq_self.mpr halive

theorem repairChunk_spec (cd : Codec) (D P : Nat) (alive : Nat → Bool)
    (fresh : List Nat) (t : Nat) (plain : List Nat) (ch : Chunk)
    (hD : 0 < D) (hok : ChunkOK cd D P alive plain ch)
    (hh : D ≤ chunkHealth alive ch)
    (hfa : ∀ h ∈ fresh, alive h = true)
    (ht : t ≤ D + P) (hfl : t ≤ fresh.length + D) :
    ChunkOK cd D P alive plain (repairChunk cd D P alive fresh t ch)
    ∧ chunkHealth alive (repairChunk cd D P alive fresh t ch) =
        max (chunkHealth alive ch) t := by
  have hdl := downloadChunk_ok cd D P alive plain ch hD hok hh
  have hrch : repairChunk cd D P alive fresh t ch =
      ⟨ch.pieces ++ repairPieces cd D P alive fresh t plain ch⟩ := by
    unfold repairChunk
    rw [hdl]
  have halive : ∀ p ∈ repairPieces cd D P alive fresh t plain ch,
      alive p.host = true :=
    fun p hp =>
      hfa p.host (repairPieces_host_mem cd D P alive fresh t plain ch p hp)
  have hretr := retrievable_append_fresh alive ch
    (repairPieces cd D P alive fresh t plain ch) halive
  have hidc : ((retrievable alive ch).map Piece.pieceIndex).length =
      chunkHealth alive ch := by
    rw [List.length_map]
    rfl
  have hlen : (repairPieces cd D P alive fresh t plain ch).length =
      t - chunkHealth alive ch := by
    rw [repairPieces_length]
    have hmiss := length_le_filter_not_mem_add
      ((retrievable alive ch).map Piece.pieceIndex) (List.range (D + P))
      (List.nodup_range _)
    rw [List.length_range, hidc] at hmiss
    omega
  constructor
  · rw [hrch]
    constructor
    · show ((retrievable alive ⟨ch.pieces ++ _⟩).map Piece.pieceIndex).Nodup
      rw [hretr, List.map_append, List.nodup_append]
      refine ⟨hok.1, repairPieces_idx_nodup cd D P alive fresh t plain ch, ?_⟩
      intro a ha hb
      simp only [List.mem_map] at hb
      obtain ⟨p, hp, hpe⟩ := hb
      exact (repairPieces_idx_mem cd D P alive fresh t plain ch p hp).2
        (hpe ▸ ha)
    · intro p hp
      rw [hretr] at hp
      rcases List.mem_append.1 hp with h1 | h2
      · exact hok.2 p h1
      · exact repairPieces_valid cd D P alive fresh t plain ch p h2
  · rw [hrch]
    show (retrievable alive ⟨ch.pieces ++ _⟩).length = _
    rw [hretr, List.length_append, hlen]
    show chunkHealth alive ch + _ = _
    omega

theorem mapM_isSome {α β : Type} (f : α → Option β) :
    ∀ l : List α, (∀ a ∈ l, ∃ b, f a = some b) → ∃ bs, l.mapM f = some bs
  | [], _ => ⟨[], rfl⟩
  | a :: l, h => by
      obtain ⟨b, hb⟩ := h a (List.mem_cons_self a l)
      obtain ⟨bs, hbs⟩ := mapM_isSome f l
        (fun x hx => h x (List.mem_cons_of_mem a hx))
      exact ⟨b :: bs, by rw [List.mapM_cons, hb, hbs]; rfl⟩

theorem download_isSome_of_ok (cd : Codec) (alive : Nat → Bool) (f : RFile)
    (hD : 0 < f.dataPieces)
    (hch : ∀ ch ∈ f.chunks, ∃ plain,
      ChunkOK cd f.dataPieces f.parityPieces alive plain ch ∧
      f.dataPieces ≤ chunkHealth alive ch) :
    ∃ Y, download cd alive f = some Y := by
  obtain ⟨bs, hbs⟩ := mapM_isSome (downloadChunk cd f.dataPieces alive)
    f.chunks
    (fun ch hc => by
      obtain ⟨plain, hok, hh⟩ := hch ch hc
      exact ⟨plain, downloadChunk_ok cd f.dataPieces f.parityPieces alive
        plain ch hD hok hh⟩)
  refine ⟨bs.flatten, ?_⟩
  unfold download
  rw [hbs]
  rfl

theorem repairTarget_le (D P : Nat) (cap : ℚ)
    (hcapD : cap * (D : ℚ) ≤ ((D + P : Nat) : ℚ)) :
    repairTarget D cap ≤ D + P := by
  unfold repairTarget
  rw [Int.toNat_le]
  apply Int.ceil_le.2
  push_cast at hcapD ⊢
  exact hcapD

theorem repairTarget_ge (D : Nat) (cap : ℚ) (hcap0 : 0 ≤ cap) :
    cap * (D : ℚ) ≤ ((repairTarget D cap : Nat) : ℚ) := by
  unfold repairTarget
  have h0 : (0 : ℤ) ≤ ⌈cap * (D : ℚ)⌉ :=
    Int.ceil_nonneg (mul_nonneg hcap0 (Nat.cast_nonneg D))
  have h1 := Int.le_ceil (cap * (D : ℚ))
  have h2 : ((⌈cap * (D : ℚ)⌉.toNat : Nat) : ℚ) =
      ((⌈cap * (D : ℚ)⌉ : ℤ) : ℚ) := by
    exact_mod_cast congrArg (fun z : ℤ => (z : ℚ)) (Int.toNat_of_nonneg h0)
  rw [h2]
  exact h1

/-- C7: remote repair stops (re-uploads nothing) once redundancy has
reached the cap `(1 − remoteRepairDownloadThreshold) × originalRedundancy`
rather than restoring full redundancy; and when the file is downloadable
and enough fresh hosts are reachable, one repair pass brings its
redundancy to at least that capped value while the file remains
downloadable. -/
theorem C7_remote_repair_capped (cd : Codec) (cap : ℚ) (alive : Nat → Bool)
    (fresh : List Nat) (f : RFile)
    (hD : 0 < f.dataPieces) (hne : f.chunks ≠ [])
    (hch : ∀ ch ∈ f.chunks, ∃ plain,
      ChunkOK cd f.dataPieces f.parityPieces alive plain ch ∧
      f.dataPieces ≤ chunkHealth alive ch)
    (hfa : ∀ h ∈ fresh, alive h = true)
    (hcap0 : 0 ≤ cap)
    (hcapD : cap * (f.dataPieces : ℚ) ≤
      ((f.dataPieces + f.parityPieces : Nat) : ℚ))
    (hfl : repairTarget f.dataPieces cap ≤ fresh.length + f.dataPieces) :
    (cap ≤ redundancy alive f → remoteRepair cd cap alive fresh f = f)
    ∧ cap ≤ redundancy alive (remoteRepair cd cap alive fresh f)
    ∧ ∃ Y, download cd alive (remoteRepair cd cap alive fresh f) = some Y := by
  have htDP := repairTarget_le f.dataPieces f.parityPieces cap hcapD
  have htQ := repairTarget_ge f.dataPieces cap hcap0
  have hstop : cap ≤ redundancy alive f →
      remoteRepair cd cap alive fresh f = f := by
    intro h
    unfold remoteRepair
    rw [if_pos h]
  by_cases hred : cap ≤ redundancy alive f
  · refine ⟨hstop, ?_, ?_⟩
    · rw [hstop hred]
      exact hred
    · rw [hstop hred]
      exact download_isSome_of_ok cd alive f hD hch
  · have hrep : remoteRepair cd cap alive fresh f =
        { f with chunks := (f.chunks.map (repairChunk cd f.dataPieces
          f.parityPieces alive fresh (repairTarget f.dataPieces cap))) } := by
      unfold remoteRepair
      rw [if_neg hred]
    have hch' : ∀ ch ∈ f.chunks.map (repairChunk cd f.dataPieces
        f.parityPieces alive fresh (repairTarget f.dataPieces cap)),
        ∃ plain, ChunkOK cd f.dataPieces f.parityPieces alive plain ch ∧
        f.dataPieces ≤ chunkHealth alive ch ∧
        repairTarget f.dataPieces cap ≤ chunkHealth alive ch := by
      intro ch hm
      simp only [List.mem_map] at hm
      obtain ⟨ch0, hch0, rfl⟩ := hm
      obtain ⟨plain, hok, hh⟩ := hch ch0 hch0
      obtain ⟨hok', hhealth⟩ := repairChunk_spec cd f.dataPieces
        f.parityPieces alive fresh (repairTarget f.dataPieces cap) plain ch0
        hD hok hh hfa htDP hfl
      exact ⟨plain, hok', by omega, by omega⟩
    have hne' : f.chunks.map (repairChunk cd f.dataPieces f.parityPieces
        alive fresh (repairTarget f.dataPieces cap)) ≠ [] := by
      intro h
      exact hne (List.map_eq_nil_iff.1 h)
    refine ⟨hstop, ?_, ?_⟩
    · rw [hrep]
      have hall : ∀ ch ∈ f.chunks.map (repairChunk cd f.dataPieces
          f.parityPieces alive fresh (repairTarget f.dataPieces cap)),
          repairTarget f.dataPieces cap ≤ chunkHealth alive ch := by
        intro ch hm2
        obtain ⟨plain, _, _, ht2⟩ := hch' ch hm2
        exact ht2
      obtain ⟨m, hm, htm⟩ := fileHealth_ge alive
        { f with chunks := (f.chunks.map (repairChunk cd f.dataPieces
          f.parityPieces alive fresh (repairTarget f.dataPieces cap))) }
        (repairTarget f.dataPieces cap) hne' hall
      rw [redundancy_of_health _ _ m hm]
      rw [le_div_iff₀ (by exact_mod_cast hD)]
      calc cap * ((f.dataPieces : Nat) : ℚ)
          ≤ ((repairTarget f.dataPieces cap : Nat) : ℚ) := htQ
        _ ≤ (m : ℚ) := by exact_mod_cast htm
    · rw [hrep]
      apply download_isSome_of_ok
      · exact hD
      · intro ch hm2
        obtain ⟨plain, hok, hh, _⟩ := hch' ch hm2
        exact ⟨plain, hok, hh⟩

/-- Witness for C7: the one-chunk file `fW` (replication codec, `D = 1,
P = 2`, hosts 1 and 2 lost) repaired with fresh host 3 under the cap 3/2
reaches redundancy at least 3/2. -/
theorem C7_remote_repair_capped_witness :
    (3 / 2 : ℚ) ≤ redundancy aliveW
      (remoteRepair repCodec (3 / 2) aliveW [3] fW) :=
  (C7_remote_repair_capped repCodec (3 / 2) aliveW [3] fW (by decide)
    (by decide)
    (by
      intro ch hm
      have he : ch = chW := by simpa [fW] using hm
      subst he
      exact ⟨[9], ⟨by decide, by decide⟩, by decide⟩)
    (by decide) (by norm_num)
    (by norm_num [fW])
    (by
      norm_num [repairTarget, fW]
      exact Int.ceil_le.2 (by norm_num))).2.1

end Renter

end Sia
